import Mathlib

/-!
# Verification of the `git-worktree-manager` core

A shallow embedding, in Lean 4, of the worktree lifecycle and
environment-provisioning engine of the `git-worktree-manager` repository:

* the porcelain worktree-listing parser and repository state reader
  (`src/core/git.ts`),
* the worktree CRUD operations (`src/core/worktree.ts`: listing, name
  resolution, lookup, validation, create, remove, port offsets),
* the port allocator (`src/core/ports.ts`),
* the environment-file port substitution (`src/core/environment.ts`),
* the cursor-rules sync engine (`src/core/cursor-rules.ts`).

JavaScript strings are modelled as `List Char`.  File systems and the
external `git` tool are modelled as explicit environment records of pure
oracles; functions that perform `git` mutations additionally return the
list of mutating commands they issued, so that "no mutation happened"
is expressible.  TypeScript `number`s holding ports and offsets are
modelled as `Nat` (offsets are nonnegative by construction and ports are
positive by the configuration invariant).
-/

set_option maxHeartbeats 1000000

namespace Wtm

/-- JavaScript strings, modelled as lists of characters. -/
abbrev Str := List Char

/-- Embed a Lean string literal. -/
def str (s : String) : Str := s.data

/-- The whitespace characters relevant to `String.prototype.trim` for the
ASCII inputs this program manipulates. -/
def wsChar (c : Char) : Bool := c = ' ' || c = '\t' || c = '\n' || c = '\r'

/-- JavaScript `s.trim()`: remove leading and trailing whitespace. -/
def trimStr (s : Str) : Str :=
  ((s.dropWhile wsChar).reverse.dropWhile wsChar).reverse

/-- JavaScript `s.startsWith(pre)`. -/
def hasPre : Str → Str → Bool
  | _, [] => true
  | [], _ :: _ => false
  | c :: s, d :: pre => c == d && hasPre s pre

/-- JavaScript `s.includes(sub)` (substring occurrence). -/
def hasSub : Str → Str → Bool
  | [], needle => needle.isEmpty
  | c :: t, needle => hasPre (c :: t) needle || hasSub t needle

/-- JavaScript `s.endsWith(suf)`. -/
def endsWithB (s suf : Str) : Bool := hasPre s.reverse suf.reverse

/-- JavaScript `s.toLowerCase()` (ASCII fragment). -/
def lowerStr (s : Str) : Str := s.map Char.toLower

/-- JavaScript `s.split(sep)` for a single-character separator. -/
def splitCh (sep : Char) : Str → List Str
  | [] => [[]]
  | c :: t =>
    if c = sep then [] :: splitCh sep t
    else
      match splitCh sep t with
      | [] => [[c]]
      | h :: r => (c :: h) :: r

/-- JavaScript `array.join(sep)` for a single-character separator
(inverse of `splitCh`). -/
def joinCh (sep : Char) : List Str → Str
  | [] => []
  | [p] => p
  | p :: q :: rest => p ++ sep :: joinCh sep (q :: rest)

/-- JavaScript `s.replace(pat, repl)` where `pat` is a plain string:
replace the first occurrence of `pat` only. -/
def replaceOnce (pat repl : Str) : Str → Str
  | [] => if pat.isEmpty then repl else []
  | c :: t =>
    if hasPre (c :: t) pat then repl ++ (c :: t).drop pat.length
    else c :: replaceOnce pat repl t

/-- Decimal rendering of a natural number (JavaScript number-to-string
for the nonnegative integers used as ports). -/
def natStr (n : Nat) : Str := (Nat.repr n).data

/-- Node `path.join(a, b)` restricted to the way this program calls it:
`b` is always a plain relative path (no `..`/`.` segments, no leading
separator), so joining appends with a single separator, collapsing a
trailing separator on `a`. -/
def joinPath (a b : Str) : Str :=
  if a.isEmpty then b
  else if a.getLast? = some '/' then a.dropLast ++ '/' :: b
  else a ++ '/' :: b

/-- JavaScript `array.pop() ?? ''` on the result of a split. -/
def lastPart (parts : List Str) : Str := parts.getLast?.getD []

/-! ## Repository state reader (`src/core/git.ts`)

`git worktree list --porcelain` output is modelled as its list of lines
(the TypeScript splits the trimmed tool output on `'\n'`). -/

/-- One parsed worktree entry (`RawWorktreeInfo` in `git.ts`). -/
structure RawWorktreeInfo where
  path : Str
  head : Str
  branch : Option Str
  bare : Bool
  detached : Bool
  locked : Bool
  prunable : Bool
deriving DecidableEq, Repr

/-- A fresh entry as initialised when a `worktree <path>` line is seen. -/
def freshRaw (p : Str) : RawWorktreeInfo :=
  { path := p, head := [], branch := none, bare := false, detached := false,
    locked := false, prunable := false }

/-- Parser state: accumulated entries plus the entry being built.
`none` models the initial empty `current` object, which has no `path`
and therefore is never pushed; TypeScript field lines hitting that empty
object have no observable effect, matching the `none` no-op below. -/
structure ParseState where
  acc : List RawWorktreeInfo
  current : Option RawWorktreeInfo
deriving DecidableEq, Repr

/-- `if (current.path) worktrees.push(current)`: a current entry is pushed
only when it exists and its path is non-empty (truthy). -/
def flushCurrent (cur : Option RawWorktreeInfo) : List RawWorktreeInfo :=
  match cur with
  | none => []
  | some c => if c.path.isEmpty then [] else [c]

/-- One iteration of the parsing loop in `getRawWorktreeList`. -/
def parseStep (s : ParseState) (line : Str) : ParseState :=
  if hasPre line (str "worktree ") then
    { acc := s.acc ++ flushCurrent s.current,
      current := some (freshRaw (trimStr (line.drop 9))) }
  else
    match s.current with
    | none => s
    | some c =>
      if hasPre line (str "HEAD ") then
        { s with current := some { c with head := trimStr (line.drop 5) } }
      else if hasPre line (str "branch ") then
        { s with current := some { c with
            branch := some (replaceOnce (str "refs/heads/") []
              (trimStr (line.drop 7))) } }
      else if line = str "bare" then
        { s with current := some { c with bare := true } }
      else if line = str "detached" then
        { s with current := some { c with detached := true } }
      else if hasPre line (str "locked") then
        { s with current := some { c with locked := true } }
      else if hasPre line (str "prunable") then
        { s with current := some { c with prunable := true } }
      else s

/-- `getRawWorktreeList`: fold the porcelain lines, then push the last
entry. -/
def getRawWorktreeList (lines : List Str) : List RawWorktreeInfo :=
  let s := lines.foldl parseStep { acc := [], current := none }
  s.acc ++ flushCurrent s.current

/-- `findMainWorktree`: the path on the first `worktree ` line; falls back
to the git root when no such line exists. -/
def findMainFromLines (lines : List Str) (gitRoot : Str) : Str :=
  match lines.find? (fun l => hasPre l (str "worktree ")) with
  | some l => trimStr (l.drop 9)
  | none => gitRoot

/-- `getRepoName`: basename of the main worktree path
(`split('/').filter(Boolean)`, last element, `'unknown'` if none). -/
def getRepoName (mainWorktreePath : Str) : Str :=
  let parts := (splitCh '/' mainWorktreePath).filter (fun p => !p.isEmpty)
  parts.getLast?.getD (str "unknown")

/-- `getParentDir`: drop the last nonempty segment and re-join under `/`. -/
def getParentDir (path : Str) : Str :=
  let parts := (splitCh '/' path).filter (fun p => !p.isEmpty)
  '/' :: joinCh '/' parts.dropLast

/-! ## Worktree operations (`src/core/worktree.ts`) -/

/-- The environment a command invocation observes: the porcelain listing
the git tool would emit, the git root (fallback), filesystem oracles, and
outcome oracles for the mutating git commands. -/
structure GitEnv where
  porcelain : List Str
  gitRoot : Str
  fsExists : Str → Bool
  fsMTime : Str → Option Nat
  rawResult : List Str → Except Str Unit
  fetchResult : Except Str Unit

/-- The env-file locations probed by `hasEnvFiles`. -/
def envLocations : List Str :=
  [str ".env", str "apps/api/.env", str "apps/web/.env", str "packages/api/.env"]

/-- `hasEnvFiles`. -/
def hasEnvFiles (env : GitEnv) (path : Str) : Bool :=
  envLocations.any (fun loc => env.fsExists (joinPath path loc))

/-- `hasNodeModules`. -/
def hasNodeModules (env : GitEnv) (path : Str) : Bool :=
  env.fsExists (joinPath path (str "node_modules"))

/-- `getLastModified` (epoch-milliseconds; a failing stat yields epoch 0). -/
def getLastModified (env : GitEnv) (path : Str) : Nat :=
  (env.fsMTime path).getD 0

/-- `WorktreeInfo` from `types.ts`.  Note `branch` is a plain string. -/
structure WorktreeInfo where
  name : Str
  path : Str
  branch : Str
  isMain : Bool
  hasEnv : Bool
  hasDeps : Bool
  lastModified : Nat
  commitSha : Str
  isDetached : Bool
deriving DecidableEq, Repr

/-- Name resolution inlined in `listWorktrees`: `"main"` for the main
entry, otherwise the path basename with a `"<repoName>-"` lead stripped
when present. -/
def resolveWtName (isMain : Bool) (rawPath repoName : Str) : Str :=
  if isMain then str "main"
  else
    let baseName := lastPart (splitCh '/' rawPath)
    if hasPre baseName (repoName ++ '-' :: []) then
      baseName.drop (repoName.length + 1)
    else baseName

/-- `listWorktrees`. -/
def listWorktrees (env : GitEnv) : List WorktreeInfo :=
  let mainWorktree := findMainFromLines env.porcelain env.gitRoot
  let repoName := getRepoName mainWorktree
  (getRawWorktreeList env.porcelain).map (fun raw =>
    let isMain : Bool := raw.path = mainWorktree
    { name := resolveWtName isMain raw.path repoName
      path := raw.path
      branch := raw.branch.getD (str "HEAD")
      isMain := isMain
      hasEnv := hasEnvFiles env raw.path
      hasDeps := hasNodeModules env raw.path
      lastModified := getLastModified env raw.path
      commitSha := raw.head
      isDetached := raw.detached })

/-- `getWorktreeByName`: `"main"` (case-insensitively) selects the main
record; any other name is matched exactly against resolved names. -/
def getWorktreeByName (env : GitEnv) (name : Str) : Option WorktreeInfo :=
  let worktrees := listWorktrees env
  if lowerStr name = str "main" then worktrees.find? (fun wt => wt.isMain)
  else worktrees.find? (fun wt => wt.name = name)

/-- `getWorktreePath`: `<parentOfMain>/<repoName>-<name>`. -/
def getWorktreePath (env : GitEnv) (name : Str) : Str :=
  let mainWorktree := findMainFromLines env.porcelain env.gitRoot
  joinPath (getParentDir mainWorktree) (getRepoName mainWorktree ++ '-' :: name)

/-- The counting loop of `getWorktreePortOffset`. -/
def offsetLoop (mainPath name : Str) : List WorktreeInfo → Nat → Nat
  | [], offset => offset
  | wt :: rest, offset =>
    if wt.path = mainPath then offsetLoop mainPath name rest offset
    else if wt.name = name then offset + 1
    else offsetLoop mainPath name rest (offset + 1)

/-- `getWorktreePortOffset`. -/
def getWorktreePortOffset (env : GitEnv) (name : Str) : Nat :=
  if lowerStr name = str "main" then 0
  else
    let mainWorktree := findMainFromLines env.porcelain env.gitRoot
    offsetLoop mainWorktree name (listWorktrees env) 0

/-- The error values raised by the worktree operations (`errors.ts`). -/
inductive WtError where
  | notGitRepo (cwd : Str)
  | worktreeNotFound (name : Str)
  | worktreeExists (path : Str)
  | invalidWorktreeName (name : Str) (reason : Str)
  | gitCommand (command : Str) (message : Str)
deriving DecidableEq, Repr

/-- `validateWorktreeName` (the TypeScript `includes`/`startsWith` checks
are the substring tests embedded here). -/
def validateWorktreeName (name : Str) : Except WtError Unit :=
  if name.isEmpty || (trimStr name).isEmpty then
    .error (.invalidWorktreeName name (str "name cannot be empty"))
  else if hasSub name (str "/") then
    .error (.invalidWorktreeName name (str "name cannot contain slashes"))
  else if hasSub name (str "..") then
    .error (.invalidWorktreeName name (str "name cannot contain \"..\""))
  else if hasPre name (str "-") then
    .error (.invalidWorktreeName name (str "name cannot start with \"-\""))
  else .ok ()

/-- A git mutation performed by an operation: a raw command or a fetch. -/
inductive GitCmd where
  | raw (args : List Str)
  | fetch
deriving DecidableEq, Repr

/-- `removeWorktree`.  Returns the list of mutating git commands issued
together with the outcome, so that "fails before touching the worktree
set" is expressible as an empty command trace. -/
def removeWorktree (env : GitEnv) (name : Str) (force : Bool) :
    List GitCmd × Except WtError Unit :=
  match validateWorktreeName name with
  | .error e => ([], .error e)
  | .ok _ =>
    match getWorktreeByName env name with
    | none => ([], .error (.worktreeNotFound name))
    | some wt =>
      if wt.isMain then
        ([], .error (.gitCommand (str "git worktree remove")
          (str "Cannot remove main worktree")))
      else
        let args := [str "worktree", str "remove", wt.path] ++
          (if force then [str "--force"] else [])
        match env.rawResult args with
        | .ok _ => ([GitCmd.raw args], .ok ())
        | .error msg =>
          ([GitCmd.raw args], .error (.gitCommand (str "git worktree remove") msg))

/-- Options accepted by `createWorktree`. -/
structure CreateOptions where
  name : Str
  branch : Option Str
  newBranch : Option Str
  fromBranch : Option Str
  noFetch : Bool

/-- Result of `createWorktree`. -/
structure CreateResult where
  worktree : WorktreeInfo
  fetched : Bool
  baseBranch : Option Str
deriving DecidableEq, Repr

/-- The `worktree add` invocation chosen by `createWorktree`, and the
base branch it reports: an explicit `newBranch` wins, then an existing
`branch`, else the generated `worktree/<name>` branch; a `fromBranch`
bases the new branch on `origin/<fromBranch>`. -/
def createAddArgs (opts : CreateOptions) (worktreePath : Str) :
    List Str × Option Str :=
  match opts.newBranch with
  | some nb =>
    match opts.fromBranch with
    | some f =>
      ([str "worktree", str "add", str "-b", nb, worktreePath,
        str "origin/" ++ f], some (str "origin/" ++ f))
    | none => ([str "worktree", str "add", str "-b", nb, worktreePath], none)
  | none =>
    match opts.branch with
    | some b => ([str "worktree", str "add", worktreePath, b], none)
    | none =>
      let defaultBranch := str "worktree/" ++ opts.name
      match opts.fromBranch with
      | some f =>
        ([str "worktree", str "add", str "-b", defaultBranch, worktreePath,
          str "origin/" ++ f], some (str "origin/" ++ f))
      | none =>
        ([str "worktree", str "add", str "-b", defaultBranch, worktreePath], none)

/-- `createWorktree`.  `envAfter` is the repository state observed by the
final name lookup, after the `worktree add` mutation has run. -/
def createWorktree (env envAfter : GitEnv) (opts : CreateOptions) :
    List GitCmd × Except WtError CreateResult :=
  match validateWorktreeName opts.name with
  | .error e => ([], .error e)
  | .ok _ =>
    let worktreePath := getWorktreePath env opts.name
    if env.fsExists worktreePath then
      ([], .error (.worktreeExists worktreePath))
    else
      let doFetch := opts.fromBranch.isSome && !opts.noFetch
      let fetchTrace := if doFetch then [GitCmd.fetch] else []
      let fetched :=
        if doFetch then
          match env.fetchResult with
          | .ok _ => true
          | .error _ => false
        else false
      let argsBase := createAddArgs opts worktreePath
      match env.rawResult argsBase.1 with
      | .error msg =>
        (fetchTrace ++ [GitCmd.raw argsBase.1],
          .error (.gitCommand (str "git worktree add") msg))
      | .ok _ =>
        match getWorktreeByName envAfter opts.name with
        | none =>
          (fetchTrace ++ [GitCmd.raw argsBase.1],
            .error (.worktreeNotFound opts.name))
        | some wt =>
          (fetchTrace ++ [GitCmd.raw argsBase.1],
            .ok { worktree := wt, fetched := fetched, baseBranch := argsBase.2 })

/-! ## Port allocator (`src/core/ports.ts`) and configuration -/

/-- `Config` from `types.ts` (ports as naturals). -/
structure Config where
  editorCmd : Str
  baseApiPort : Nat
  baseWebPort : Nat
  baseBranch : Option Str
deriving DecidableEq, Repr

/-- `DEFAULT_CONFIG`. -/
def DEFAULT_CONFIG : Config :=
  { editorCmd := str "cursor", baseApiPort := 4000, baseWebPort := 5173,
    baseBranch := none }

/-- `PortAllocation`. -/
structure PortAllocation where
  apiPort : Nat
  webPort : Nat
  offset : Nat
deriving DecidableEq, Repr

/-- `calculatePorts`. -/
def calculatePorts (config : Config) (offset : Nat) : PortAllocation :=
  { apiPort := config.baseApiPort + offset,
    webPort := config.baseWebPort + offset,
    offset := offset }

/-! ## Environment provisioner (`src/core/environment.ts`)

The substitution patterns in the source are the multiline regular
expressions `/^KEY=.*/m`.  Such a pattern matches at a line start, `KEY=`
followed by `.*`, which extends to the end of that line (`.` does not
match the line terminator), and `String.replace` rewrites the first match
only.  Content is therefore modelled through its `'\n'`-split lines: a
pattern is carried as the `KEY=` lead, a test is "some line starts with
the lead", and a replacement rewrites the first such line wholly. -/

/-- `EnvFileType`. -/
inductive EnvFileType where
  | api
  | web
  | root
deriving DecidableEq, Repr

/-- One substitution rule (`PortSubstitution` in the source): the
line-anchored `KEY=` lead of the pattern `/^KEY=.*&#47;m` and the
replacement builder. -/
structure PortSub where
  pat : Str
  replacement : PortAllocation → Str

/-- `API_SUBSTITUTIONS`. -/
def API_SUBSTITUTIONS : List PortSub :=
  [⟨str "PORT=", fun p => str "PORT=" ++ natStr p.apiPort⟩,
   ⟨str "APP_URL=", fun p => str "APP_URL=http://localhost:" ++ natStr p.webPort⟩]

/-- `WEB_SUBSTITUTIONS`. -/
def WEB_SUBSTITUTIONS : List PortSub :=
  [⟨str "VITE_API_BASE=",
    fun p => str "VITE_API_BASE=http://localhost:" ++ natStr p.apiPort ++ str "/api"⟩,
   ⟨str "VITE_PORT=", fun p => str "VITE_PORT=" ++ natStr p.webPort⟩,
   ⟨str "PORT=", fun p => str "PORT=" ++ natStr p.webPort⟩]

/-- `ROOT_SUBSTITUTIONS`. -/
def ROOT_SUBSTITUTIONS : List PortSub :=
  [⟨str "PORT=", fun p => str "PORT=" ++ natStr p.apiPort⟩,
   ⟨str "APP_URL=", fun p => str "APP_URL=http://localhost:" ++ natStr p.webPort⟩,
   ⟨str "VITE_API_BASE=",
    fun p => str "VITE_API_BASE=http://localhost:" ++ natStr p.apiPort ++ str "/api"⟩,
   ⟨str "VITE_PORT=", fun p => str "VITE_PORT=" ++ natStr p.webPort⟩]

/-- The rule list selected per role
(`type === 'api' ? API : type === 'web' ? WEB : ROOT`). -/
def subsFor (t : EnvFileType) : List PortSub :=
  match t with
  | .api => API_SUBSTITUTIONS
  | .web => WEB_SUBSTITUTIONS
  | .root => ROOT_SUBSTITUTIONS

/-- Lines of a content string. -/
def splitLines (s : Str) : List Str := splitCh '\n' s

/-- Rebuild content from lines. -/
def joinLines (ls : List Str) : Str := joinCh '\n' ls

/-- `pattern.test(s)` for `/^KEY=.*&#47;m`. -/
def regexTest (pat : Str) (s : Str) : Bool :=
  (splitLines s).any (fun l => hasPre l pat)

/-- Replace the first line starting with `pat` by `repl`. -/
def replaceFirstLine (pat repl : Str) : List Str → List Str
  | [] => []
  | l :: rest =>
    if hasPre l pat then repl :: rest else l :: replaceFirstLine pat repl rest

/-- `s.replace(pattern, repl)` for `/^KEY=.*&#47;m`. -/
def regexReplaceFirst (pat repl : Str) (s : Str) : Str :=
  joinLines (replaceFirstLine pat repl (splitLines s))

/-- `substitutePortVars`. -/
def substitutePortVars (content : Str) (t : EnvFileType)
    (ports : PortAllocation) : Str :=
  (subsFor t).foldl (fun result sub =>
    if regexTest sub.pat result then
      regexReplaceFirst sub.pat (sub.replacement ports) result
    else result) content

/-- The specification-side reading of `substitutePortVars` (from the
spec's words): split the content into lines once, apply the role's
ordered rule list, each rule replacing exactly the first line matching
its `KEY=` lead — a rule matching nowhere changing nothing — and re-join. -/
def specSubstitute (content : Str) (t : EnvFileType)
    (ports : PortAllocation) : Str :=
  joinLines ((subsFor t).foldl
    (fun ls sub => replaceFirstLine sub.pat (sub.replacement ports) ls)
    (splitLines content))

/-! ## Rule sync engine (`src/core/cursor-rules.ts`) -/

/-- `CURSOR_RULES_DIR`. -/
def CURSOR_RULES_DIR : Str := str ".cursor/rules"

/-- `RULE_FILE_EXTENSION`. -/
def RULE_FILE_EXTENSION : Str := str ".mdc"

/-- Environment for a sync call: the two worktree paths, whether the
source rules directory exists, the directory listing (`none` models a
`readdir` failure), the git-ignore oracle and the target-existence
oracle.  Copying a file updates the target-existence oracle. -/
structure SyncEnv where
  mainPath : Str
  targetPath : Str
  sourceDirExists : Bool
  dirEntries : Option (List Str)
  ignored : Str → Bool
  targetExists : Str → Bool

/-- `findCursorRules` on the source worktree: `.mdc` entries of the rules
directory, joined to full paths; empty when the directory is missing or
unreadable. -/
def findCursorRules (env : SyncEnv) : List Str :=
  if !env.sourceDirExists then []
  else
    match env.dirEntries with
    | none => []
    | some files =>
      (files.filter (fun f => endsWithB f RULE_FILE_EXTENSION)).map
        (fun f => joinPath (joinPath env.mainPath CURSOR_RULES_DIR) f)

/-- `CursorRulesSyncResult`. -/
structure SyncResult where
  copiedCount : Nat
  skippedCount : Nat
  copiedFiles : List Str
deriving DecidableEq, Repr

/-- The all-zero result. -/
def emptySyncResult : SyncResult :=
  { copiedCount := 0, skippedCount := 0, copiedFiles := [] }

/-- The copy loop of `syncCursorRules`; returns the result and the
target-existence oracle after the copies. -/
def syncLoop (env : SyncEnv) (targetRulesDir : Str) :
    List Str → (Str → Bool) → SyncResult × (Str → Bool)
  | [], te => (emptySyncResult, te)
  | sourceFile :: rest, te =>
    let fileName := lastPart (splitCh '/' sourceFile)
    let targetFile := joinPath targetRulesDir fileName
    if env.ignored sourceFile || !te targetFile then
      let res := syncLoop env targetRulesDir rest
        (fun p => if p = targetFile then true else te p)
      ({ copiedCount := res.1.copiedCount + 1,
         skippedCount := res.1.skippedCount,
         copiedFiles := fileName :: res.1.copiedFiles }, res.2)
    else
      let res := syncLoop env targetRulesDir rest te
      ({ res.1 with skippedCount := res.1.skippedCount + 1 }, res.2)

/-- `syncCursorRules`: the result plus the environment after the copies. -/
def syncCursorRules (env : SyncEnv) : SyncResult × SyncEnv :=
  if env.mainPath = env.targetPath then (emptySyncResult, env)
  else if !env.sourceDirExists then (emptySyncResult, env)
  else
    let ruleFiles := findCursorRules env
    if ruleFiles.isEmpty then (emptySyncResult, env)
    else
      let targetRulesDir := joinPath env.targetPath CURSOR_RULES_DIR
      let res := syncLoop env targetRulesDir ruleFiles env.targetExists
      (res.1, { env with targetExists := res.2 })

/-- The `.mdc` entries of a directory listing (spec-side shorthand). -/
def mdcOf (names : List Str) : List Str :=
  names.filter (fun f => endsWithB f RULE_FILE_EXTENSION)

/-- Full path of a rule file in the source rules directory. -/
def ruleFileOf (env : SyncEnv) (n : Str) : Str :=
  joinPath (joinPath env.mainPath CURSOR_RULES_DIR) n

/-- Full path of a rule file in the target rules directory. -/
def targetFileOf (env : SyncEnv) (n : Str) : Str :=
  joinPath (joinPath env.targetPath CURSOR_RULES_DIR) n

/-- The copy condition of the claim: a source rule file is copied exactly
when it is git-ignored or no file of its name exists at the target. -/
def copyCond (env : SyncEnv) (te : Str → Bool) (n : Str) : Bool :=
  env.ignored (ruleFileOf env n) || !te (targetFileOf env n)

/-! ## Specification-side definitions used by the claims -/

/-- Spec-side counter (from the claim's words): iterate the already
main-excluded records in order, incrementing a counter per entry; the
counter value at the first entry whose name matches, else the final
counter value. -/
def specOffsetAux (name : Str) : List WorktreeInfo → Nat
  | [] => 0
  | wt :: rest => if wt.name = name then 1 else 1 + specOffsetAux name rest

/-- Spec-side offset allocation (from the claim's words): 0 for a name
case-insensitively equal to `"main"`, otherwise the position counter over
the main-excluded listing. -/
def specOffsetFor (name : Str) (wts : List WorktreeInfo) : Nat :=
  if lowerStr name = str "main" then 0
  else specOffsetAux name (wts.filter (fun wt => !wt.isMain))

/-- A porcelain block as described by the spec: a `worktree <path>` line
followed by optional `HEAD`, `branch refs/heads/<name>`, `bare`,
`detached`, `locked[...]`, `prunable[...]` lines, terminated by a blank
line. -/
structure PorcelainBlock where
  path : Str
  headSha : Option Str
  branchName : Option Str
  bare : Bool
  detached : Bool
  lockedSuffix : Option Str
  prunableSuffix : Option Str
deriving DecidableEq, Repr

/-- The optional `HEAD <sha>` line of a block. -/
def headLines : Option Str → List Str
  | some h => [str "HEAD " ++ h]
  | none => []

/-- The optional `branch refs/heads/<name>` line of a block. -/
def branchLines : Option Str → List Str
  | some n => [str "branch refs/heads/" ++ n]
  | none => []

/-- The optional `bare` line of a block. -/
def bareLines : Bool → List Str
  | true => [str "bare"]
  | false => []

/-- The optional `detached` line of a block. -/
def detachedLines : Bool → List Str
  | true => [str "detached"]
  | false => []

/-- The optional `locked[...]` line of a block. -/
def lockedLines : Option Str → List Str
  | some suf => [str "locked" ++ suf]
  | none => []

/-- The optional `prunable[...]` line of a block. -/
def prunableLines : Option Str → List Str
  | some suf => [str "prunable" ++ suf]
  | none => []

/-- The lines of one block, blank-line terminated. -/
def renderBlock (b : PorcelainBlock) : List Str :=
  (str "worktree " ++ b.path) ::
    (headLines b.headSha ++ branchLines b.branchName ++ bareLines b.bare ++
     detachedLines b.detached ++ lockedLines b.lockedSuffix ++
     prunableLines b.prunableSuffix ++ [[]])

/-- A porcelain listing: the blocks' lines in order. -/
def renderBlocks (bs : List PorcelainBlock) : List Str :=
  (bs.map renderBlock).flatten

/-- The record the spec promises for one block: path from the `worktree`
line, head from the `HEAD` line (empty if none), branch the ref with the
`refs/heads/` lead stripped (`none` if no branch line), and each flag set
exactly when its line appears. -/
def specRecord (b : PorcelainBlock) : RawWorktreeInfo :=
  { path := b.path, head := b.headSha.getD [], branch := b.branchName,
    bare := b.bare, detached := b.detached,
    locked := b.lockedSuffix.isSome, prunable := b.prunableSuffix.isSome }

/-- Well-formedness of a block: the path is nonempty and the payloads
carry no surrounding whitespace (they are emitted trimmed by git and the
parser re-trims them). -/
def WFBlock (b : PorcelainBlock) : Prop :=
  b.path ≠ [] ∧ trimStr b.path = b.path ∧
  (match b.headSha with
   | some h => trimStr h = h
   | none => True) ∧
  (match b.branchName with
   | some n => trimStr (str "refs/heads/" ++ n) = str "refs/heads/" ++ n
   | none => True)

/-- Spec-side name validity (from the claim's words): non-empty, not
whitespace-only, no `/`, no `..`, not starting with `-`. -/
def goodName (name : Str) : Prop :=
  name ≠ [] ∧ trimStr name ≠ [] ∧ '/' ∉ name ∧
  ¬ (str "..") <:+: name ∧ name.head? ≠ some '-'

instance instDecidableGoodName (name : Str) : Decidable (goodName name) := by
  unfold goodName
  infer_instance

/-- The violated rule named by a rejection reason (from the claim's
words): every reason string corresponds to a rule the name violates. -/
def reasonNamesRule (name reason : Str) : Prop :=
  (reason = str "name cannot be empty" ∧ (name = [] ∨ trimStr name = [])) ∨
  (reason = str "name cannot contain slashes" ∧ '/' ∈ name) ∨
  (reason = str "name cannot contain \"..\"" ∧ (str "..") <:+: name) ∨
  (reason = str "name cannot start with \"-\"" ∧ name.head? = some '-')

/-! ## Concrete environments for witnesses and counterexamples -/

/-- Porcelain lines of a repository with a main worktree and one
`feature` worktree. -/
def featureLines : List Str :=
  [str "worktree /tmp/repo", str "HEAD 1111111111111111111111111111111111111111",
   str "branch refs/heads/main", [],
   str "worktree /tmp/repo-feature",
   str "HEAD 2222222222222222222222222222222222222222",
   str "branch refs/heads/worktree/feature", []]

/-- Environment with a main worktree and one `feature` worktree. -/
def featureEnv : GitEnv :=
  { porcelain := featureLines, gitRoot := str "/tmp/repo",
    fsExists := fun _ => false, fsMTime := fun _ => none,
    rawResult := fun _ => .ok (), fetchResult := .ok () }

/-- Porcelain lines of a repository whose second worktree is in detached
HEAD state (no `branch` line, a `detached` line). -/
def detLines : List Str :=
  [str "worktree /tmp/repo", str "HEAD 1111111111111111111111111111111111111111",
   str "branch refs/heads/main", [],
   str "worktree /tmp/repo-det",
   str "HEAD 3333333333333333333333333333333333333333",
   str "detached", []]

/-- Environment with a main worktree and one detached worktree. -/
def detEnv : GitEnv :=
  { porcelain := detLines, gitRoot := str "/tmp/repo",
    fsExists := fun _ => false, fsMTime := fun _ => none,
    rawResult := fun _ => .ok (), fetchResult := .ok () }

/-- Porcelain lines of a repository with a non-main worktree whose
directory is `repo-MAIN`, so its resolved name `MAIN` is a case variant
of `main`. -/
def shadowLines : List Str :=
  [str "worktree /tmp/repo", str "HEAD 1111111111111111111111111111111111111111",
   str "branch refs/heads/main", [],
   str "worktree /tmp/repo-MAIN",
   str "HEAD 4444444444444444444444444444444444444444",
   str "branch refs/heads/worktree/MAIN", []]

/-- Environment with a main worktree shadowed by a `repo-MAIN` sibling. -/
def shadowEnv : GitEnv :=
  { porcelain := shadowLines, gitRoot := str "/tmp/repo",
    fsExists := fun _ => false, fsMTime := fun _ => none,
    rawResult := fun _ => .ok (), fetchResult := .ok () }

/-- Two concrete porcelain blocks exercising every optional line. -/
def demoBlocks : List PorcelainBlock :=
  [{ path := str "/tmp/repo", headSha := some (str "1111"),
     branchName := some (str "main"), bare := false, detached := false,
     lockedSuffix := none, prunableSuffix := none },
   { path := str "/tmp/repo-det", headSha := some (str "2222"),
     branchName := none, bare := true, detached := true,
     lockedSuffix := some (str " reason"), prunableSuffix := some [] }]

/-- The main record listed by `featureEnv`. -/
def featureMainRec : WorktreeInfo :=
  { name := str "main", path := str "/tmp/repo", branch := str "main",
    isMain := true, hasEnv := false, hasDeps := false, lastModified := 0,
    commitSha := str "1111111111111111111111111111111111111111",
    isDetached := false }

/-- The main record listed by `shadowEnv`. -/
def shadowMainRec : WorktreeInfo :=
  { name := str "main", path := str "/tmp/repo", branch := str "main",
    isMain := true, hasEnv := false, hasDeps := false, lastModified := 0,
    commitSha := str "1111111111111111111111111111111111111111",
    isDetached := false }

/-- The raw entry parsed for the main worktree of `detLines`. -/
def detRawMain : RawWorktreeInfo :=
  { path := str "/tmp/repo",
    head := str "1111111111111111111111111111111111111111",
    branch := some (str "main"), bare := false, detached := false,
    locked := false, prunable := false }

/-- The raw entry parsed for the detached worktree of `detLines`. -/
def detRawDet : RawWorktreeInfo :=
  { path := str "/tmp/repo-det",
    head := str "3333333333333333333333333333333333333333",
    branch := none, bare := false, detached := true,
    locked := false, prunable := false }

/-- The listing record produced for the main worktree of `detEnv`. -/
def detMainRec : WorktreeInfo :=
  { name := str "main", path := str "/tmp/repo", branch := str "main",
    isMain := true, hasEnv := false, hasDeps := false, lastModified := 0,
    commitSha := str "1111111111111111111111111111111111111111",
    isDetached := false }

/-- The listing record produced for the detached worktree of `detEnv`. -/
def detRec : WorktreeInfo :=
  { name := str "det", path := str "/tmp/repo-det", branch := str "HEAD",
    isMain := false, hasEnv := false, hasDeps := false, lastModified := 0,
    commitSha := str "3333333333333333333333333333333333333333",
    isDetached := true }

/-- A sync environment: two rule files, `credentials.mdc` gitignored,
`style.mdc` tracked and already present at the target. -/
def syncDemoEnv : SyncEnv :=
  { mainPath := str "/tmp/repo", targetPath := str "/tmp/repo-feature",
    sourceDirExists := true,
    dirEntries := some [str "credentials.mdc", str "style.mdc", str "readme.txt"],
    ignored := fun p => hasSub p (str "credentials"),
    targetExists := fun p => p = str "/tmp/repo-feature/.cursor/rules/style.mdc" }

/-! ## Lemmas about the string primitives -/

theorem hasPre_nil (s : Str) : hasPre s [] = true := by
  cases s <;> rfl

theorem hasPre_append (a b : Str) : hasPre (a ++ b) a = true := by
  induction a with
  | nil => simp [hasPre_nil]
  | cons c t ih => simp [hasPre, ih]

theorem drop_length_append (a b : Str) : (a ++ b).drop a.length = b := by
  simp

theorem replaceOnce_of_pre (pat repl s : Str) (h : hasPre s pat = true) :
    replaceOnce pat repl s = repl ++ s.drop pat.length := by
  cases s with
  | nil =>
    cases pat with
    | nil => simp [replaceOnce]
    | cons d ds => simp [hasPre] at h
  | cons c t => simp [replaceOnce, h]

theorem splitCh_ne_nil (sep : Char) (s : Str) : splitCh sep s ≠ [] := by
  cases s with
  | nil => simp [splitCh]
  | cons c t =>
    simp only [splitCh]
    split
    · simp
    · split
      · simp
      · simp

theorem splitCh_of_not_mem (sep : Char) (s : Str) (h : sep ∉ s) :
    splitCh sep s = [s] := by
  induction s with
  | nil => rfl
  | cons c t ih =>
    simp only [List.mem_cons, not_or] at h
    simp only [splitCh]
    rw [if_neg (fun hc => h.1 hc.symm), ih h.2]

theorem mem_splitCh_not_mem (sep : Char) (s : Str) :
    ∀ p ∈ splitCh sep s, sep ∉ p := by
  induction s with
  | nil =>
    intro p hp
    simp [splitCh] at hp
    simp [hp]
  | cons c t ih =>
    intro p hp
    simp only [splitCh] at hp
    by_cases hc : c = sep
    · rw [if_pos hc] at hp
      rcases List.mem_cons.mp hp with h | h
      · simp [h]
      · exact ih p h
    · rw [if_neg hc] at hp
      rcases hsp : splitCh sep t with _ | ⟨h0, r⟩
      · exact absurd hsp (splitCh_ne_nil sep t)
      · rw [hsp] at hp
        rcases List.mem_cons.mp hp with h | h
        · subst h
          intro hmem
          rcases List.mem_cons.mp hmem with h | h
          · exact hc h.symm
          · exact ih h0 (by rw [hsp]; exact List.mem_cons_self _ _) h
        · exact ih p (by rw [hsp]; exact List.mem_cons.mpr (Or.inr h))

theorem two_le_splitCh_length (sep : Char) (s : Str) (h : sep ∈ s) :
    2 ≤ (splitCh sep s).length := by
  induction s with
  | nil => cases h
  | cons c t ih =>
    simp only [splitCh]
    by_cases hc : c = sep
    · rw [if_pos hc]
      have h1 := splitCh_ne_nil sep t
      have h2 : 1 ≤ (splitCh sep t).length := List.length_pos.mpr h1
      simp only [List.length_cons]
      omega
    · rw [if_neg hc]
      have hmem : sep ∈ t := by
        rcases List.mem_cons.mp h with h1 | h1
        · exact absurd h1.symm hc
        · exact h1
      rcases hsp : splitCh sep t with _ | ⟨h0, r⟩
      · exact absurd hsp (splitCh_ne_nil sep t)
      · have := ih hmem
        rw [hsp] at this
        simp only [List.length_cons] at this ⊢
        omega

theorem lastPart_cons_of_ne (p : Str) (L : List Str) (h : L ≠ []) :
    lastPart (p :: L) = lastPart L := by
  unfold lastPart
  cases L with
  | nil => exact absurd rfl h
  | cons a l => rw [List.getLast?_cons_cons]

theorem splitCh_cons_sep (sep : Char) (t : Str) :
    splitCh sep (sep :: t) = [] :: splitCh sep t := by
  simp [splitCh]

theorem splitCh_cons_ne (sep c : Char) (t h0 : Str) (r : List Str)
    (hc : ¬ c = sep) (hsp : splitCh sep t = h0 :: r) :
    splitCh sep (c :: t) = (c :: h0) :: r := by
  simp only [splitCh]
  rw [if_neg hc, hsp]

theorem splitCh_append_sep (sep : Char) (t seg : Str) (h : sep ∉ seg) :
    lastPart (splitCh sep (t ++ sep :: seg)) = seg := by
  induction t with
  | nil =>
    rw [List.nil_append, splitCh_cons_sep, splitCh_of_not_mem sep seg h,
      lastPart_cons_of_ne _ _ (by simp : ([seg] : List Str) ≠ [])]
    rfl
  | cons c t' ih =>
    rw [List.cons_append]
    by_cases hc : c = sep
    · subst hc
      rw [splitCh_cons_sep,
        lastPart_cons_of_ne _ _ (splitCh_ne_nil c (t' ++ c :: seg))]
      exact ih
    · rcases hsp : splitCh sep (t' ++ sep :: seg) with _ | ⟨h0, r⟩
      · exact absurd hsp (splitCh_ne_nil sep _)
      · rw [splitCh_cons_ne sep c _ h0 r hc hsp]
        rw [hsp] at ih
        cases r with
        | nil =>
          exfalso
          have hmem : sep ∈ t' ++ sep :: seg := by simp
          have h2 := two_le_splitCh_length sep (t' ++ sep :: seg) hmem
          rw [hsp] at h2
          simp at h2
        | cons r0 rr =>
          rw [lastPart_cons_of_ne _ _ (by simp : r0 :: rr ≠ [])] at ih ⊢
          exact ih

theorem dropWhile_of_all_neg (p : Char → Bool) (s : Str)
    (h : ∀ c ∈ s, p c = false) : s.dropWhile p = s := by
  cases s with
  | nil => rfl
  | cons c t =>
    rw [List.dropWhile_cons, h c (List.mem_cons_self c t)]
    simp

theorem trimStr_of_no_ws (s : Str) (h : ∀ c ∈ s, wsChar c = false) :
    trimStr s = s := by
  unfold trimStr
  rw [dropWhile_of_all_neg wsChar s h,
    dropWhile_of_all_neg wsChar s.reverse
      (fun c hc => h c (List.mem_reverse.mp hc)),
    List.reverse_reverse]

theorem hasSub_singleton (s : Str) (c : Char) :
    hasSub s [c] = true ↔ c ∈ s := by
  induction s with
  | nil => simp [hasSub]
  | cons x t ih =>
    simp only [hasSub, hasPre, hasPre_nil, Bool.and_true, Bool.or_eq_true,
      beq_iff_eq, ih, List.mem_cons]
    constructor
    · rintro (rfl | h)
      · exact Or.inl rfl
      · exact Or.inr h
    · rintro (rfl | h)
      · exact Or.inl rfl
      · exact Or.inr h

theorem hasPre_iff_isPre (s pre : Str) : hasPre s pre = true ↔ pre <+: s := by
  induction s generalizing pre with
  | nil =>
    cases pre with
    | nil => simp [hasPre]
    | cons d ds =>
      simp only [hasPre, List.prefix_iff_eq_take]
      simp
  | cons c t ih =>
    cases pre with
    | nil => simp [hasPre_nil]
    | cons d ds =>
      simp only [hasPre, Bool.and_eq_true, beq_iff_eq, ih]
      constructor
      · rintro ⟨rfl, u, rfl⟩
        exact ⟨u, rfl⟩
      · rintro ⟨u, hu⟩
        injection hu with h1 h2
        exact ⟨h1.symm, u, h2⟩

theorem hasSub_iff_contained (s sub : Str) : hasSub s sub = true ↔ sub <:+: s := by
  induction s with
  | nil =>
    simp only [hasSub, List.isEmpty_iff]
    constructor
    · rintro rfl
      exact List.infix_rfl
    · intro h
      exact List.eq_nil_of_infix_nil h
  | cons c t ih =>
    simp only [hasSub, Bool.or_eq_true, hasPre_iff_isPre, ih]
    exact List.infix_cons_iff.symm

theorem hasPre_dash_iff (s : Str) :
    hasPre s (str "-") = true ↔ s.head? = some '-' := by
  cases s with
  | nil => simp [hasPre, str]
  | cons c t =>
    show (c == '-' && hasPre t []) = true ↔ _
    rw [hasPre_nil]
    simp

theorem isEmpty_eq_false_of_ne (s : Str) (h : s ≠ []) : s.isEmpty = false := by
  cases s with
  | nil => exact absurd rfl h
  | cons c t => rfl

theorem joinPath_shape (a b : Str) (h : a ≠ []) :
    ∃ t, joinPath a b = t ++ '/' :: b := by
  unfold joinPath
  rw [if_neg (by simpa [List.isEmpty_iff] using h)]
  by_cases hl : a.getLast? = some '/'
  · rw [if_pos hl]
    exact ⟨a.dropLast, rfl⟩
  · rw [if_neg hl]
    exact ⟨a, rfl⟩

theorem joinPath_right_inj (d m n : Str) (h : joinPath d m = joinPath d n) :
    m = n := by
  unfold joinPath at h
  by_cases he : d.isEmpty
  · rwa [if_pos he, if_pos he] at h
  · rw [if_neg he, if_neg he] at h
    by_cases hl : d.getLast? = some '/'
    · rw [if_pos hl, if_pos hl] at h
      exact List.cons_injective (List.append_cancel_left h)
    · rw [if_neg hl, if_neg hl] at h
      exact List.cons_injective (List.append_cancel_left h)

theorem joinPath_ne_nil (a b : Str) (hb : b ≠ []) : joinPath a b ≠ [] := by
  unfold joinPath
  by_cases he : a.isEmpty
  · rwa [if_pos he]
  · rw [if_neg he]
    by_cases hl : a.getLast? = some '/'
    · rw [if_pos hl]
      simp
    · rw [if_neg hl]
      simp

theorem bool_eq_false (b : Bool) (h : ¬ b = true) : b = false := by
  cases b
  · rfl
  · exact absurd rfl h

theorem mem_of_getLast?_eq (l : List Str) (a : Str) (h : l.getLast? = some a) :
    a ∈ l := by
  induction l with
  | nil => simp [List.getLast?] at h
  | cons x t ih =>
    cases t with
    | nil =>
      simp [List.getLast?] at h
      simp [h]
    | cons y r =>
      rw [List.getLast?_cons_cons] at h
      exact List.mem_cons.mpr (Or.inr (ih h))

/-! ## Lemmas about listings and offsets -/

theorem listWorktrees_fields (env : GitEnv) :
    ∀ wt ∈ listWorktrees env,
      (wt.isMain = true ↔ wt.path = findMainFromLines env.porcelain env.gitRoot)
      ∧ (wt.isMain = true → wt.name = str "main") := by
  intro wt hwt
  unfold listWorktrees at hwt
  rcases List.mem_map.mp hwt with ⟨raw, _, rfl⟩
  constructor
  · show decide (raw.path = _) = true ↔ raw.path = _
    simp
  · intro hM
    show resolveWtName _ raw.path _ = str "main"
    have hM2 : decide (raw.path = findMainFromLines env.porcelain env.gitRoot)
        = true := hM
    unfold resolveWtName
    rw [hM2]
    simp

theorem offsetLoop_eq_spec (mainPath name : Str) (l : List WorktreeInfo)
    (k : Nat)
    (hmem : ∀ wt ∈ l, wt.isMain = true ↔ wt.path = mainPath) :
    offsetLoop mainPath name l k =
      k + specOffsetAux name (l.filter (fun wt => !wt.isMain)) := by
  induction l generalizing k with
  | nil => simp [offsetLoop, specOffsetAux]
  | cons wt rest ih =>
    have hwt := hmem wt (List.mem_cons_self _ _)
    have hrest : ∀ w ∈ rest, w.isMain = true ↔ w.path = mainPath :=
      fun w hw => hmem w (List.mem_cons.mpr (Or.inr hw))
    unfold offsetLoop
    by_cases hp : wt.path = mainPath
    · have hM : wt.isMain = true := hwt.mpr hp
      rw [if_pos hp, List.filter_cons_of_neg (by simp [hM])]
      exact ih k hrest
    · have hM : wt.isMain = false := by
        cases hM2 : wt.isMain
        · rfl
        · exact absurd (hwt.mp hM2) hp
      rw [if_neg hp, List.filter_cons_of_pos (by simp [hM])]
      unfold specOffsetAux
      by_cases hn : wt.name = name
      · rw [if_pos hn, if_pos hn]
      · rw [if_neg hn, if_neg hn, ih (k + 1) hrest]
        omega

theorem offset_eq_spec (env : GitEnv) (name : Str) :
    getWorktreePortOffset env name = specOffsetFor name (listWorktrees env) := by
  unfold getWorktreePortOffset specOffsetFor
  by_cases hl : lowerStr name = str "main"
  · rw [if_pos hl, if_pos hl]
  · rw [if_neg hl, if_neg hl]
    have := offsetLoop_eq_spec (findMainFromLines env.porcelain env.gitRoot)
      name (listWorktrees env) 0
      (fun wt hwt => (listWorktrees_fields env wt hwt).1)
    simpa using this

/-- C1: `getWorktreePortOffset` returns 0 for a name case-insensitively
equal to `"main"`; otherwise it equals the spec's position counter over
the main-excluded listing: the counter value at the first matching
record, or the total non-main count when no record matches.  Hence two
calls over an unchanged worktree listing return the same integer. -/
theorem wtm_c1 :
    (∀ (env : GitEnv) (name : Str),
      getWorktreePortOffset env name = specOffsetFor name (listWorktrees env)) ∧
    (∀ (env env' : GitEnv) (name : Str),
      listWorktrees env = listWorktrees env' →
      getWorktreePortOffset env name = getWorktreePortOffset env' name) := by
  refine ⟨fun env name => offset_eq_spec env name, fun env env' name h => ?_⟩
  rw [offset_eq_spec, offset_eq_spec, h]

/-- C1 witness: the stability clause applied at the concrete two-worktree
environment, where `feature` receives offset 1. -/
theorem wtm_c1_witness :
    (listWorktrees featureEnv = listWorktrees featureEnv) ∧
    getWorktreePortOffset featureEnv (str "feature") =
      getWorktreePortOffset featureEnv (str "feature") ∧
    getWorktreePortOffset featureEnv (str "feature") = 1 :=
  ⟨rfl, wtm_c1.2 featureEnv featureEnv (str "feature") rfl, by decide⟩

/-- C9: `calculatePorts` adds the offset to both base ports and records
the offset; at offset 0 it returns exactly the base ports; both ports are
strictly increasing in the offset; and with the default configuration
(`baseApiPort` 4000, `baseWebPort` 5173) the single non-main worktree
`feature` at offset 1 receives API port 4001 and web port 5174. -/
theorem wtm_c9 :
    (∀ (config : Config) (n : Nat),
      calculatePorts config n =
        { apiPort := config.baseApiPort + n,
          webPort := config.baseWebPort + n, offset := n }) ∧
    (∀ config : Config,
      calculatePorts config 0 =
        { apiPort := config.baseApiPort, webPort := config.baseWebPort,
          offset := 0 }) ∧
    (∀ (config : Config) (n m : Nat), n < m →
      (calculatePorts config n).apiPort < (calculatePorts config m).apiPort ∧
      (calculatePorts config n).webPort < (calculatePorts config m).webPort) ∧
    getWorktreePortOffset featureEnv (str "feature") = 1 ∧
    calculatePorts DEFAULT_CONFIG 1 =
      { apiPort := 4001, webPort := 5174, offset := 1 } := by
  refine ⟨fun config n => rfl, fun config => by simp [calculatePorts],
    fun config n m h => ⟨?_, ?_⟩, by decide, by decide⟩
  · simp only [calculatePorts]
    omega
  · simp only [calculatePorts]
    omega

/-- C9 witness: strict monotonicity applied at offsets 0 < 1 under the
default configuration. -/
theorem wtm_c9_witness :
    (0 < 1) ∧
    ((calculatePorts DEFAULT_CONFIG 0).apiPort <
        (calculatePorts DEFAULT_CONFIG 1).apiPort ∧
     (calculatePorts DEFAULT_CONFIG 0).webPort <
        (calculatePorts DEFAULT_CONFIG 1).webPort) :=
  ⟨by decide, wtm_c9.2.2.1 DEFAULT_CONFIG 0 1 (by decide)⟩

/-- C5 counterexample: on a porcelain listing whose second block carries a
`detached` line and no `branch` line, the raw entry's branch is `none`,
but the record produced by the listing operation has `isDetached = true`
and a branch field holding the present string `"HEAD"` — the
`WorktreeInfo.branch` field is a plain string and is never absent,
contradicting "the branch field is absent when the worktree is in
detached HEAD state". -/
theorem wtm_c5_counterexample :
    getRawWorktreeList detLines = [detRawMain, detRawDet] ∧
    detRawDet.branch = none ∧
    listWorktrees detEnv = [detMainRec, detRec] ∧
    detRec.isDetached = true ∧
    detRec.branch = str "HEAD" ∧
    ¬ detRec.branch = [] := by
  refine ⟨by decide, by decide, by decide, by decide, by decide, by decide⟩

/-- C5 amended: for every environment, the listing records' branch fields
are, position by position, the raw entries' branch values with the
literal `"HEAD"` substituted when the raw branch is `none` (as it is for
a detached entry, which has no `branch refs/heads/...` line); the
detached flag is carried over unchanged.  The branch field of a listing
record is therefore never absent. -/
theorem wtm_c5_amended (env : GitEnv) :
    (listWorktrees env).map (fun w => (w.branch, w.isDetached)) =
      (getRawWorktreeList env.porcelain).map
        (fun raw => (raw.branch.getD (str "HEAD"), raw.detached)) := by
  unfold listWorktrees
  rw [List.map_map]
  rfl

/-! ## Name validation lemmas -/

theorem validate_of_good (name : Str) (h : goodName name) :
    validateWorktreeName name = .ok () := by
  obtain ⟨h1, h2, h3, h4, h5⟩ := h
  have c1 : (name.isEmpty || (trimStr name).isEmpty) = false := by
    rw [isEmpty_eq_false_of_ne name h1, isEmpty_eq_false_of_ne _ h2]
    rfl
  have c2 : hasSub name (str "/") = false :=
    bool_eq_false _ (fun hb => h3 ((hasSub_singleton name '/').mp hb))
  have c3 : hasSub name (str "..") = false :=
    bool_eq_false _ (fun hb => h4 ((hasSub_iff_contained name (str "..")).mp hb))
  have c4 : hasPre name (str "-") = false :=
    bool_eq_false _ (fun hb => h5 ((hasPre_dash_iff name).mp hb))
  unfold validateWorktreeName
  rw [c1, c2, c3, c4]
  simp

theorem validate_error_form (name : Str) (h : ¬ goodName name) :
    ∃ r, validateWorktreeName name = .error (.invalidWorktreeName name r) ∧
      reasonNamesRule name r := by
  unfold validateWorktreeName
  by_cases c1 : (name.isEmpty || (trimStr name).isEmpty) = true
  · refine ⟨str "name cannot be empty", by rw [c1]; simp, Or.inl ⟨rfl, ?_⟩⟩
    rcases Bool.or_eq_true_iff.mp c1 with ha | hb
    · exact Or.inl (List.isEmpty_iff.mp ha)
    · exact Or.inr (List.isEmpty_iff.mp hb)
  · have c1f := bool_eq_false _ c1
    by_cases c2 : hasSub name (str "/") = true
    · exact ⟨str "name cannot contain slashes", by rw [c1f, c2]; simp,
        Or.inr (Or.inl ⟨rfl, (hasSub_singleton name '/').mp c2⟩)⟩
    · have c2f := bool_eq_false _ c2
      by_cases c3 : hasSub name (str "..") = true
      · exact ⟨str "name cannot contain \"..\"", by rw [c1f, c2f, c3]; simp,
          Or.inr (Or.inr (Or.inl ⟨rfl, (hasSub_iff_contained name (str "..")).mp c3⟩))⟩
      · have c3f := bool_eq_false _ c3
        by_cases c4 : hasPre name (str "-") = true
        · exact ⟨str "name cannot start with \"-\"", by rw [c1f, c2f, c3f, c4]; simp,
            Or.inr (Or.inr (Or.inr ⟨rfl, (hasPre_dash_iff name).mp c4⟩))⟩
        · exfalso
          apply h
          have c4f := bool_eq_false _ c4
          have c2g : hasSub name ['/'] = false := c2f
          rcases Bool.or_eq_false_iff.mp c1f with ⟨ha, hb⟩
          refine ⟨?_, ?_, ?_, ?_, ?_⟩
          · intro hn
            simp [hn] at ha
          · intro hn
            simp [hn] at hb
          · intro hmem
            exact absurd ((hasSub_singleton name '/').mpr hmem) (by simp [c2g])
          · intro hinf
            exact absurd ((hasSub_iff_contained name _).mpr hinf) (by simp [c3f])
          · intro hh
            exact absurd ((hasPre_dash_iff name).mpr hh) (by simp [c4f])

theorem char_of_lower_main (c : Char) (h : Char.toLower c ∈ str "main") :
    c ≠ '/' ∧ c ≠ '.' ∧ c ≠ '-' ∧ wsChar c = false := by
  refine ⟨?_, ?_, ?_, ?_⟩
  · rintro rfl
    exact absurd h (by decide)
  · rintro rfl
    exact absurd h (by decide)
  · rintro rfl
    exact absurd h (by decide)
  · cases hw : wsChar c
    · rfl
    · exfalso
      have hc : ((c = ' ' ∨ c = '\t') ∨ c = '\n') ∨ c = '\r' := by
        simpa [wsChar] using hw
      rcases hc with ((rfl | rfl) | rfl) | rfl <;> exact absurd h (by decide)

theorem validate_of_lower_main (name : Str) (h : lowerStr name = str "main") :
    validateWorktreeName name = .ok () := by
  apply validate_of_good
  have hmem : ∀ c ∈ name, Char.toLower c ∈ str "main" := by
    intro c hc
    rw [← h]
    exact List.mem_map_of_mem Char.toLower hc
  have hne : name ≠ [] := by
    intro hn
    rw [hn] at h
    exact absurd h (by decide)
  have hnows : ∀ c ∈ name, wsChar c = false :=
    fun c hc => (char_of_lower_main c (hmem c hc)).2.2.2
  refine ⟨hne, ?_, ?_, ?_, ?_⟩
  · rw [trimStr_of_no_ws name hnows]
    exact hne
  · intro hmem2
    exact (char_of_lower_main '/' (hmem '/' hmem2)).1 rfl
  · intro hinf
    have hdot : '.' ∈ name := hinf.subset (by decide)
    exact (char_of_lower_main '.' (hmem '.' hdot)).2.1 rfl
  · intro hh
    have hdash : '-' ∈ name := by
      cases name with
      | nil => simp at hh
      | cons c t =>
        simp only [List.head?, Option.some.injEq] at hh
        simp [hh]
    exact (char_of_lower_main '-' (hmem '-' hdash)).2.2.1 rfl

/-- Refusal of removing the main worktree: whenever the lookup resolves
to the main record, `removeWorktree` raises the git-operation error
before issuing any mutating command. -/
theorem remove_main_refused (env : GitEnv) (name : Str) (force : Bool)
    (wt : WorktreeInfo) (hw : getWorktreeByName env name = some wt)
    (hm : wt.isMain = true) :
    removeWorktree env name force =
      ([], .error (.gitCommand (str "git worktree remove")
        (str "Cannot remove main worktree"))) := by
  have hl : lowerStr name = str "main" := by
    by_cases hcase : lowerStr name = str "main"
    · exact hcase
    · exfalso
      unfold getWorktreeByName at hw
      rw [if_neg hcase] at hw
      have hmemw := List.mem_of_find?_eq_some hw
      have hpred := List.find?_some hw
      have hname : wt.name = name := by simpa using hpred
      have hmain := (listWorktrees_fields env wt hmemw).2 hm
      apply hcase
      rw [← hname, hmain]
      decide
  have hv := validate_of_lower_main name hl
  simp [removeWorktree, hv, hw, hm]

/-- C6: when the looked-up record is the main worktree, `removeWorktree`
raises the version-control-operation error `"Cannot remove main
worktree"` for every value of the force flag, and it does so without
issuing the tool's remove command, so the worktree set is unchanged. -/
theorem wtm_c6 (env : GitEnv) (name : Str) (force : Bool)
    (wt : WorktreeInfo) (hw : getWorktreeByName env name = some wt)
    (hm : wt.isMain = true) :
    removeWorktree env name force =
      ([], .error (.gitCommand (str "git worktree remove")
        (str "Cannot remove main worktree"))) :=
  remove_main_refused env name force wt hw hm

/-- C6 witness: removing `main` (with force) in the concrete two-worktree
environment. -/
theorem wtm_c6_witness :
    getWorktreeByName featureEnv (str "main") = some featureMainRec ∧
    featureMainRec.isMain = true ∧
    removeWorktree featureEnv (str "main") true =
      ([], .error (.gitCommand (str "git worktree remove")
        (str "Cannot remove main worktree"))) :=
  ⟨by decide, by decide,
    wtm_c6 featureEnv (str "main") true featureMainRec (by decide) (by decide)⟩

/-- C7: `validateWorktreeName` accepts exactly the names that are
non-empty, not whitespace-only, contain no `/`, contain no `..`, and do
not start with `-`; a violating name is rejected with
`InvalidWorktreeName` whose reason names a violated rule; and in both
`createWorktree` and `removeWorktree` the validation runs first: for an
invalid name the outcome is the same for every environment (so no
filesystem or git oracle is consulted) and the mutating command trace is
empty. -/
theorem wtm_c7 :
    (∀ name : Str, goodName name → validateWorktreeName name = .ok ()) ∧
    (∀ name : Str, ¬ goodName name →
      ∃ r, validateWorktreeName name = .error (.invalidWorktreeName name r) ∧
        reasonNamesRule name r) ∧
    (∀ (name : Str) (env env' : GitEnv) (force : Bool), ¬ goodName name →
      removeWorktree env name force = removeWorktree env' name force ∧
      (removeWorktree env name force).1 = [] ∧
      ∃ r, (removeWorktree env name force).2 =
        .error (.invalidWorktreeName name r)) ∧
    (∀ (env env' envA envA' : GitEnv) (opts : CreateOptions),
      ¬ goodName opts.name →
      createWorktree env envA opts = createWorktree env' envA' opts ∧
      (createWorktree env envA opts).1 = [] ∧
      ∃ r, (createWorktree env envA opts).2 =
        .error (.invalidWorktreeName opts.name r)) := by
  refine ⟨validate_of_good, validate_error_form, ?_, ?_⟩
  · intro name env env' force h
    obtain ⟨r, hr, _⟩ := validate_error_form name h
    refine ⟨?_, ?_, ⟨r, ?_⟩⟩ <;> simp [removeWorktree, hr]
  · intro env env' envA envA' opts h
    obtain ⟨r, hr, _⟩ := validate_error_form opts.name h
    refine ⟨?_, ?_, ⟨r, ?_⟩⟩ <;> simp [createWorktree, hr]

/-- C7 witness: a name with a slash is rejected (reason naming the rule)
and causes no git interaction, while a plain name is accepted. -/
theorem wtm_c7_witness :
    (¬ goodName (str "a/b")) ∧
    (∃ r, validateWorktreeName (str "a/b") =
        .error (.invalidWorktreeName (str "a/b") r) ∧
      reasonNamesRule (str "a/b") r) ∧
    goodName (str "feature") ∧
    validateWorktreeName (str "feature") = .ok () ∧
    (removeWorktree featureEnv (str "a/b") false).1 = [] :=
  ⟨by decide, wtm_c7.2.1 (str "a/b") (by decide), by decide,
    wtm_c7.1 (str "feature") (by decide),
    (wtm_c7.2.2.1 (str "a/b") featureEnv featureEnv false (by decide)).2.1⟩

/-- C10: a name whose lowercase form is `"main"` is resolved to the main
worktree by all name-based operations, even when a distinct non-main
worktree's resolved name is a case variant of `main`: the lookup returns
the record found by the `isMain` predicate (ignoring same-named non-main
records), the port offset is 0 regardless of listing position, and
removal fails with `"Cannot remove main worktree"` whenever a main record
exists — so a shadowed non-main worktree can never be fetched or removed
through the name-based interface. -/
theorem wtm_c10 (env : GitEnv) (name : Str) (force : Bool)
    (hl : lowerStr name = str "main") :
    getWorktreeByName env name =
      (listWorktrees env).find? (fun wt => wt.isMain) ∧
    getWorktreePortOffset env name = 0 ∧
    ∀ wt, (listWorktrees env).find? (fun wt => wt.isMain) = some wt →
      removeWorktree env name force =
        ([], .error (.gitCommand (str "git worktree remove")
          (str "Cannot remove main worktree"))) := by
  have h1 : getWorktreeByName env name =
      (listWorktrees env).find? (fun wt => wt.isMain) := by
    unfold getWorktreeByName
    rw [if_pos hl]
  refine ⟨h1, ?_, fun wt hfind => ?_⟩
  · unfold getWorktreePortOffset
    rw [if_pos hl]
  · have hm : wt.isMain = true := by simpa using List.find?_some hfind
    exact remove_main_refused env name force wt (h1.trans hfind) hm

/-- C10 witness: the environment with a `repo-MAIN` sibling, looked up
under the name `MAIN`. -/
theorem wtm_c10_witness :
    lowerStr (str "MAIN") = str "main" ∧
    getWorktreeByName shadowEnv (str "MAIN") = some shadowMainRec ∧
    getWorktreePortOffset shadowEnv (str "MAIN") = 0 ∧
    removeWorktree shadowEnv (str "MAIN") false =
      ([], .error (.gitCommand (str "git worktree remove")
        (str "Cannot remove main worktree"))) :=
  ⟨by decide,
    (wtm_c10 shadowEnv (str "MAIN") false (by decide)).1.trans (by decide),
    (wtm_c10 shadowEnv (str "MAIN") false (by decide)).2.1,
    (wtm_c10 shadowEnv (str "MAIN") false (by decide)).2.2 shadowMainRec
      (by decide)⟩

/-! ## Naming round trip -/

theorem getRepoName_no_slash (p : Str) : '/' ∉ getRepoName p := by
  unfold getRepoName
  rcases hl : ((splitCh '/' p).filter (fun q => !q.isEmpty)).getLast? with _ | a
  · simp only [hl, Option.getD_none]
    decide
  · simp only [hl, Option.getD_some]
    have ha := mem_of_getLast?_eq _ a hl
    have ha2 := List.mem_filter.mp ha
    exact mem_splitCh_not_mem '/' p a ha2.1

/-- C8: round trip of naming — for every environment and every name `x`
without path separators, resolving the (non-main) worktree located at
`getWorktreePath cwd x` against the repository base name yields `x`
again: the `<repoBaseName>-` lead is stripped exactly when present. -/
theorem wtm_c8 (env : GitEnv) (x : Str) (hx : '/' ∉ x) :
    resolveWtName false (getWorktreePath env x)
      (getRepoName (findMainFromLines env.porcelain env.gitRoot)) = x := by
  have hparent : getParentDir (findMainFromLines env.porcelain env.gitRoot) ≠ [] := by
    unfold getParentDir
    simp
  obtain ⟨t, ht⟩ := joinPath_shape
    (getParentDir (findMainFromLines env.porcelain env.gitRoot))
    (getRepoName (findMainFromLines env.porcelain env.gitRoot) ++ '-' :: x)
    hparent
  have hpath : getWorktreePath env x = t ++ '/' ::
      (getRepoName (findMainFromLines env.porcelain env.gitRoot) ++ '-' :: x) := by
    unfold getWorktreePath
    exact ht
  rw [hpath]
  have hseg : '/' ∉ getRepoName (findMainFromLines env.porcelain env.gitRoot)
      ++ '-' :: x := by
    intro hmem
    rcases List.mem_append.mp hmem with h | h
    · exact getRepoName_no_slash _ h
    · rcases List.mem_cons.mp h with h | h
      · simp at h
      · exact hx h
  unfold resolveWtName
  rw [if_neg (by simp)]
  rw [splitCh_append_sep '/' t _ hseg]
  have hsplit : getRepoName (findMainFromLines env.porcelain env.gitRoot)
      ++ '-' :: x =
      (getRepoName (findMainFromLines env.porcelain env.gitRoot) ++ ['-']) ++ x := by
    simp
  rw [hsplit, if_pos (hasPre_append _ x)]
  have hlen : (getRepoName (findMainFromLines env.porcelain env.gitRoot)
      ++ ['-']).length =
      (getRepoName (findMainFromLines env.porcelain env.gitRoot)).length + 1 := by
    simp
  rw [← hlen, drop_length_append]

/-- C8 witness: the round trip at the concrete environment with `x`. -/
theorem wtm_c8_witness :
    ('/' ∉ str "x") ∧
    resolveWtName false (getWorktreePath featureEnv (str "x"))
      (getRepoName (findMainFromLines featureEnv.porcelain featureEnv.gitRoot))
      = str "x" :=
  ⟨by decide, wtm_c8 featureEnv (str "x") (by decide)⟩

/-! ## Porcelain parser correctness -/

theorem replaceOnce_strip (pre repl s : Str) :
    replaceOnce pre repl (pre ++ s) = repl ++ s := by
  rw [replaceOnce_of_pre pre repl (pre ++ s) (hasPre_append pre s),
    drop_length_append]

theorem flush_some (c : RawWorktreeInfo) (h : c.path ≠ []) :
    flushCurrent (some c) = [c] := by
  show (if c.path.isEmpty = true then [] else [c]) = [c]
  rw [isEmpty_eq_false_of_ne _ h]
  simp

theorem parseStep_worktree (s : ParseState) (p : Str) :
    parseStep s (str "worktree " ++ p) =
      { acc := s.acc ++ flushCurrent s.current,
        current := some (freshRaw (trimStr p)) } := by
  unfold parseStep
  rw [if_pos (hasPre_append (str "worktree ") p)]
  rfl

theorem parseStep_blank (s : ParseState) : parseStep s [] = s := by
  unfold parseStep
  rw [if_neg (by decide : ¬ hasPre [] (str "worktree ") = true)]
  cases hc : s.current with
  | none => rfl
  | some c => rfl

theorem parseStep_head (acc : List RawWorktreeInfo) (c : RawWorktreeInfo)
    (h : Str) :
    parseStep ⟨acc, some c⟩ (str "HEAD " ++ h) =
      ⟨acc, some { c with head := trimStr h }⟩ := by
  unfold parseStep
  have h1 : hasPre (str "HEAD " ++ h) (str "worktree ") = false := rfl
  have h2 : hasPre (str "HEAD " ++ h) (str "HEAD ") = true :=
    hasPre_append (str "HEAD ") h
  rw [h1, h2]
  simp only [Bool.false_eq_true, if_false, if_true]
  rfl

theorem parseStep_branch (acc : List RawWorktreeInfo) (c : RawWorktreeInfo)
    (n : Str) :
    parseStep ⟨acc, some c⟩ (str "branch refs/heads/" ++ n) =
      ⟨acc, some { c with branch := some (replaceOnce (str "refs/heads/") []
        (trimStr (str "refs/heads/" ++ n))) }⟩ := by
  unfold parseStep
  have h1 : hasPre (str "branch refs/heads/" ++ n) (str "worktree ") = false := rfl
  have h2 : hasPre (str "branch refs/heads/" ++ n) (str "HEAD ") = false := rfl
  have h3 : hasPre (str "branch refs/heads/" ++ n) (str "branch ") = true :=
    hasPre_append (str "branch ") (str "refs/heads/" ++ n)
  rw [h1, h2, h3]
  simp only [Bool.false_eq_true, if_false, if_true]
  rfl

theorem parseStep_bare (acc : List RawWorktreeInfo) (c : RawWorktreeInfo) :
    parseStep ⟨acc, some c⟩ (str "bare") =
      ⟨acc, some { c with bare := true }⟩ := rfl

theorem parseStep_detached (acc : List RawWorktreeInfo) (c : RawWorktreeInfo) :
    parseStep ⟨acc, some c⟩ (str "detached") =
      ⟨acc, some { c with detached := true }⟩ := rfl

theorem parseStep_locked (acc : List RawWorktreeInfo) (c : RawWorktreeInfo)
    (suf : Str) :
    parseStep ⟨acc, some c⟩ (str "locked" ++ suf) =
      ⟨acc, some { c with locked := true }⟩ := by
  unfold parseStep
  have h1 : hasPre (str "locked" ++ suf) (str "worktree ") = false := rfl
  have h2 : hasPre (str "locked" ++ suf) (str "HEAD ") = false := rfl
  have h3 : hasPre (str "locked" ++ suf) (str "branch ") = false := rfl
  have h4 : ¬ (str "locked" ++ suf) = str "bare" := by
    intro hx
    have := congrArg (fun l => l.take 1) hx
    simp [str] at this
  have h5 : ¬ (str "locked" ++ suf) = str "detached" := by
    intro hx
    have := congrArg (fun l => l.take 1) hx
    simp [str] at this
  have h6 : hasPre (str "locked" ++ suf) (str "locked") = true :=
    hasPre_append (str "locked") suf
  simp [parseStep, h1, h2, h3, h4, h5, h6]

theorem parseStep_prunable (acc : List RawWorktreeInfo) (c : RawWorktreeInfo)
    (suf : Str) :
    parseStep ⟨acc, some c⟩ (str "prunable" ++ suf) =
      ⟨acc, some { c with prunable := true }⟩ := by
  unfold parseStep
  have h1 : hasPre (str "prunable" ++ suf) (str "worktree ") = false := rfl
  have h2 : hasPre (str "prunable" ++ suf) (str "HEAD ") = false := rfl
  have h3 : hasPre (str "prunable" ++ suf) (str "branch ") = false := rfl
  have h4 : ¬ (str "prunable" ++ suf) = str "bare" := by
    intro hx
    have := congrArg (fun l => l.take 1) hx
    simp [str] at this
  have h5 : ¬ (str "prunable" ++ suf) = str "detached" := by
    intro hx
    have := congrArg (fun l => l.take 1) hx
    simp [str] at this
  have h6 : hasPre (str "prunable" ++ suf) (str "locked") = false := rfl
  have h7 : hasPre (str "prunable" ++ suf) (str "prunable") = true :=
    hasPre_append (str "prunable") suf
  simp [parseStep, h1, h2, h3, h4, h5, h6, h7]

theorem foldl_headLines (acc : List RawWorktreeInfo) (c : RawWorktreeInfo)
    (o : Option Str) :
    List.foldl parseStep ⟨acc, some c⟩ (headLines o) =
      ⟨acc, some { c with head := match o with
        | some h => trimStr h
        | none => c.head }⟩ := by
  cases o with
  | none => rfl
  | some h =>
    show parseStep ⟨acc, some c⟩ (str "HEAD " ++ h) = _
    rw [parseStep_head]

theorem foldl_branchLines (acc : List RawWorktreeInfo) (c : RawWorktreeInfo)
    (o : Option Str) :
    List.foldl parseStep ⟨acc, some c⟩ (branchLines o) =
      ⟨acc, some { c with branch := match o with
        | some n => some (replaceOnce (str "refs/heads/") []
            (trimStr (str "refs/heads/" ++ n)))
        | none => c.branch }⟩ := by
  cases o with
  | none => rfl
  | some n =>
    show parseStep ⟨acc, some c⟩ (str "branch refs/heads/" ++ n) = _
    rw [parseStep_branch]

theorem foldl_bareLines (acc : List RawWorktreeInfo) (c : RawWorktreeInfo)
    (fl : Bool) :
    List.foldl parseStep ⟨acc, some c⟩ (bareLines fl) =
      ⟨acc, some { c with bare := fl || c.bare }⟩ := by
  cases fl with
  | false => rfl
  | true =>
    show parseStep ⟨acc, some c⟩ (str "bare") = _
    rw [parseStep_bare]
    simp

theorem foldl_detachedLines (acc : List RawWorktreeInfo) (c : RawWorktreeInfo)
    (fl : Bool) :
    List.foldl parseStep ⟨acc, some c⟩ (detachedLines fl) =
      ⟨acc, some { c with detached := fl || c.detached }⟩ := by
  cases fl with
  | false => rfl
  | true =>
    show parseStep ⟨acc, some c⟩ (str "detached") = _
    rw [parseStep_detached]
    simp

theorem foldl_lockedLines (acc : List RawWorktreeInfo) (c : RawWorktreeInfo)
    (o : Option Str) :
    List.foldl parseStep ⟨acc, some c⟩ (lockedLines o) =
      ⟨acc, some { c with locked := o.isSome || c.locked }⟩ := by
  cases o with
  | none => rfl
  | some suf =>
    show parseStep ⟨acc, some c⟩ (str "locked" ++ suf) = _
    rw [parseStep_locked]
    simp

theorem foldl_prunableLines (acc : List RawWorktreeInfo) (c : RawWorktreeInfo)
    (o : Option Str) :
    List.foldl parseStep ⟨acc, some c⟩ (prunableLines o) =
      ⟨acc, some { c with prunable := o.isSome || c.prunable }⟩ := by
  cases o with
  | none => rfl
  | some suf =>
    show parseStep ⟨acc, some c⟩ (str "prunable" ++ suf) = _
    rw [parseStep_prunable]
    simp

theorem foldl_renderBlock (s : ParseState) (b : PorcelainBlock)
    (hwf : WFBlock b) :
    List.foldl parseStep s (renderBlock b) =
      ⟨s.acc ++ flushCurrent s.current, some (specRecord b)⟩ := by
  obtain ⟨p, hs, bn, ba, de, lo, pr⟩ := b
  obtain ⟨hp, hptrim, hhead, hbranch⟩ := hwf
  show List.foldl parseStep s ((str "worktree " ++ p) ::
    (headLines hs ++ branchLines bn ++ bareLines ba ++ detachedLines de ++
     lockedLines lo ++ prunableLines pr ++ [[]])) = _
  rw [List.foldl_cons, parseStep_worktree, hptrim]
  simp only [List.foldl_append]
  rw [foldl_headLines, foldl_branchLines, foldl_bareLines, foldl_detachedLines,
    foldl_lockedLines, foldl_prunableLines, List.foldl_cons, List.foldl_nil,
    parseStep_blank]
  cases hs with
  | none =>
    cases bn with
    | none =>
      cases ba <;> cases de <;> cases lo <;> cases pr <;>
        simp [specRecord, freshRaw]
    | some n =>
      have hbr : trimStr (str "refs/heads/" ++ n) = str "refs/heads/" ++ n :=
        hbranch
      cases ba <;> cases de <;> cases lo <;> cases pr <;>
        simp [specRecord, freshRaw, hbr, replaceOnce_strip]
  | some hsha =>
    have hhd : trimStr hsha = hsha := hhead
    cases bn with
    | none =>
      cases ba <;> cases de <;> cases lo <;> cases pr <;>
        simp [specRecord, freshRaw, hhd]
    | some n =>
      have hbr : trimStr (str "refs/heads/" ++ n) = str "refs/heads/" ++ n :=
        hbranch
      cases ba <;> cases de <;> cases lo <;> cases pr <;>
        simp [specRecord, freshRaw, hhd, hbr, replaceOnce_strip]

theorem foldl_renderBlocks (bs : List PorcelainBlock) :
    ∀ s : ParseState, (∀ b ∈ bs, WFBlock b) →
      (List.foldl parseStep s (renderBlocks bs)).acc ++
        flushCurrent (List.foldl parseStep s (renderBlocks bs)).current =
      s.acc ++ flushCurrent s.current ++ bs.map specRecord := by
  induction bs with
  | nil =>
    intro s _
    simp [renderBlocks]
  | cons b rest ih =>
    intro s hwf
    have hb := hwf b (List.mem_cons_self _ _)
    have hrest : ∀ x ∈ rest, WFBlock x :=
      fun x hx => hwf x (List.mem_cons.mpr (Or.inr hx))
    have hren : renderBlocks (b :: rest) = renderBlock b ++ renderBlocks rest := by
      simp [renderBlocks]
    rw [hren, List.foldl_append, foldl_renderBlock s b hb, ih _ hrest]
    rw [flush_some (specRecord b) hb.1]
    simp

/-- C2: for every porcelain listing made of blocks — a `worktree <path>`
line followed by optional `HEAD <sha>`, `branch refs/heads/<name>`,
`bare`, `detached`, `locked[...]`, `prunable[...]` lines, blank-line
terminated — `getRawWorktreeList` produces exactly one record per block,
in emission order, with the path from the `worktree` line, the head from
the `HEAD` line (empty string if none), the branch equal to the ref with
the `refs/heads/` lead stripped (`none` if no branch line), and each of
the bare/detached/locked/prunable flags true exactly when its line
appears in the block. -/
theorem wtm_c2 (bs : List PorcelainBlock) (hwf : ∀ b ∈ bs, WFBlock b) :
    getRawWorktreeList (renderBlocks bs) = bs.map specRecord := by
  have h := foldl_renderBlocks bs ⟨[], none⟩ hwf
  unfold getRawWorktreeList
  simpa using h

/-- C2 witness: the two-block listing exercising every optional line. -/
theorem wtm_c2_witness :
    (∀ b ∈ demoBlocks, WFBlock b) ∧
    getRawWorktreeList (renderBlocks demoBlocks) = demoBlocks.map specRecord ∧
    demoBlocks.map specRecord =
      [{ path := str "/tmp/repo", head := str "1111",
         branch := some (str "main"), bare := false, detached := false,
         locked := false, prunable := false },
       { path := str "/tmp/repo-det", head := str "2222", branch := none,
         bare := true, detached := true, locked := true, prunable := true }] := by
  have hwf : ∀ b ∈ demoBlocks, WFBlock b := by
    intro b hb
    simp only [demoBlocks, List.mem_cons, List.not_mem_nil, or_false] at hb
    rcases hb with rfl | rfl
    · exact ⟨by decide, by decide, by decide, by decide⟩
    · exact ⟨by decide, by decide, by decide, by decide⟩
  exact ⟨hwf, wtm_c2 demoBlocks hwf, by decide⟩

/-! ## Line splitting and joining -/

theorem joinCh_splitCh (sep : Char) (s : Str) :
    joinCh sep (splitCh sep s) = s := by
  induction s with
  | nil => rfl
  | cons c t ih =>
    by_cases hc : c = sep
    · subst hc
      rw [splitCh_cons_sep]
      rcases hL : splitCh c t with _ | ⟨q, rest⟩
      · exact absurd hL (splitCh_ne_nil c t)
      · rw [hL] at ih
        show [] ++ c :: joinCh c (q :: rest) = c :: t
        rw [List.nil_append, ih]
    · rcases hL : splitCh sep t with _ | ⟨h0, r⟩
      · exact absurd hL (splitCh_ne_nil sep t)
      · rw [splitCh_cons_ne sep c t h0 r hc hL]
        rw [hL] at ih
        cases r with
        | nil =>
          have h2 : h0 = t := ih
          show c :: h0 = c :: t
          rw [h2]
        | cons r0 rr =>
          have h2 : h0 ++ sep :: joinCh sep (r0 :: rr) = t := ih
          show (c :: h0) ++ sep :: joinCh sep (r0 :: rr) = c :: t
          rw [List.cons_append, h2]

theorem splitCh_append_cons (sep : Char) (l x : Str) (h : sep ∉ l) :
    splitCh sep (l ++ sep :: x) = l :: splitCh sep x := by
  induction l with
  | nil => rw [List.nil_append, splitCh_cons_sep]
  | cons c t ih =>
    have hc : ¬ c = sep := fun hx => h (by simp [hx])
    have ht : sep ∉ t := fun hx => h (List.mem_cons.mpr (Or.inr hx))
    rw [List.cons_append]
    rcases hL : splitCh sep (t ++ sep :: x) with _ | ⟨h0, r⟩
    · exact absurd hL (splitCh_ne_nil sep _)
    · rw [splitCh_cons_ne sep c _ h0 r hc hL]
      rw [ih ht] at hL
      injection hL with e1 e2
      rw [e1, e2]

theorem splitCh_joinCh (sep : Char) (ls : List Str) (hne : ls ≠ [])
    (hfree : ∀ l ∈ ls, sep ∉ l) :
    splitCh sep (joinCh sep ls) = ls := by
  induction ls with
  | nil => exact absurd rfl hne
  | cons l rest ih =>
    cases rest with
    | nil =>
      show splitCh sep l = [l]
      exact splitCh_of_not_mem sep l (hfree l (List.mem_cons_self _ _))
    | cons q rr =>
      show splitCh sep (l ++ sep :: joinCh sep (q :: rr)) = l :: q :: rr
      rw [splitCh_append_cons sep l _ (hfree l (List.mem_cons_self _ _))]
      rw [ih (by simp) (fun x hx => hfree x (List.mem_cons.mpr (Or.inr hx)))]

/-! ## Decimal digits carry no newline -/

theorem digitChar_isDigit (m : Nat) (h : m < 10) :
    (Nat.digitChar m).isDigit = true := by
  have hall : ∀ m2, m2 < 10 → (Nat.digitChar m2).isDigit = true := by decide
  exact hall m h

theorem toDigitsCore_digits (fuel : Nat) :
    ∀ (n : Nat) (ds : Str), (∀ c ∈ ds, c.isDigit = true) →
      ∀ c ∈ Nat.toDigitsCore 10 fuel n ds, c.isDigit = true := by
  induction fuel with
  | zero =>
    intro n ds hds c hc
    exact hds c hc
  | succ f ih =>
    intro n ds hds c hc
    simp only [Nat.toDigitsCore] at hc
    have hd : (Nat.digitChar (n % 10)).isDigit = true :=
      digitChar_isDigit (n % 10) (Nat.mod_lt n (by decide))
    split at hc
    · rcases List.mem_cons.mp hc with rfl | h2
      · exact hd
      · exact hds c h2
    · refine ih (n / 10) (Nat.digitChar (n % 10) :: ds) ?_ c hc
      intro x hx
      rcases List.mem_cons.mp hx with rfl | h2
      · exact hd
      · exact hds x h2

theorem natStr_digits (n : Nat) : ∀ c ∈ natStr n, c.isDigit = true := by
  intro c hc
  have he : natStr n = Nat.toDigitsCore 10 (n + 1) n [] := rfl
  rw [he] at hc
  exact toDigitsCore_digits (n + 1) n [] (by simp) c hc

theorem natStr_no_nl (n : Nat) : '\n' ∉ natStr n := by
  intro h
  have := natStr_digits n '\n' h
  exact absurd this (by decide)

theorem no_nl_append (a b : Str) (ha : '\n' ∉ a) (hb : '\n' ∉ b) :
    '\n' ∉ a ++ b := by
  intro h
  rcases List.mem_append.mp h with h | h
  · exact ha h
  · exact hb h

theorem subsFor_no_nl (t : EnvFileType) (ports : PortAllocation) :
    ∀ sub ∈ subsFor t, '\n' ∉ sub.replacement ports := by
  intro sub hsub
  cases t <;>
    simp only [subsFor, API_SUBSTITUTIONS, WEB_SUBSTITUTIONS,
      ROOT_SUBSTITUTIONS, List.mem_cons, List.not_mem_nil, or_false] at hsub
  · rcases hsub with rfl | rfl
    · exact no_nl_append _ _ (by decide) (natStr_no_nl _)
    · exact no_nl_append _ _ (by decide) (natStr_no_nl _)
  · rcases hsub with rfl | rfl | rfl
    · exact no_nl_append _ _
        (no_nl_append _ _ (by decide) (natStr_no_nl _)) (by decide)
    · exact no_nl_append _ _ (by decide) (natStr_no_nl _)
    · exact no_nl_append _ _ (by decide) (natStr_no_nl _)
  · rcases hsub with rfl | rfl | rfl | rfl
    · exact no_nl_append _ _ (by decide) (natStr_no_nl _)
    · exact no_nl_append _ _ (by decide) (natStr_no_nl _)
    · exact no_nl_append _ _
        (no_nl_append _ _ (by decide) (natStr_no_nl _)) (by decide)
    · exact no_nl_append _ _ (by decide) (natStr_no_nl _)

/-! ## Properties of first-match line replacement -/

theorem replaceFirstLine_length (pat repl : Str) (ls : List Str) :
    (replaceFirstLine pat repl ls).length = ls.length := by
  induction ls with
  | nil => rfl
  | cons l rest ih =>
    simp only [replaceFirstLine]
    by_cases hl : hasPre l pat = true
    · rw [if_pos hl]
      simp
    · rw [if_neg hl]
      simpa using ih

theorem replaceFirstLine_getElem (pat repl : Str) (ls : List Str) (i : Nat) :
    (replaceFirstLine pat repl ls)[i]? = ls[i]? ∨
    (replaceFirstLine pat repl ls)[i]? = some repl := by
  induction ls generalizing i with
  | nil => exact Or.inl rfl
  | cons l rest ih =>
    simp only [replaceFirstLine]
    by_cases hl : hasPre l pat = true
    · rw [if_pos hl]
      cases i with
      | zero =>
        right
        simp
      | succ j =>
        left
        simp
    · rw [if_neg hl]
      cases i with
      | zero =>
        left
        simp
      | succ j =>
        simpa using ih j

theorem replaceFirstLine_of_no_match (pat repl : Str) (ls : List Str)
    (h : ∀ l ∈ ls, hasPre l pat = false) :
    replaceFirstLine pat repl ls = ls := by
  induction ls with
  | nil => rfl
  | cons l rest ih =>
    simp only [replaceFirstLine]
    rw [h l (List.mem_cons_self _ _)]
    simp only [Bool.false_eq_true, if_false]
    rw [ih (fun x hx => h x (List.mem_cons.mpr (Or.inr hx)))]

theorem mem_replaceFirstLine (pat repl : Str) (ls : List Str) :
    ∀ l ∈ replaceFirstLine pat repl ls, l ∈ ls ∨ l = repl := by
  induction ls with
  | nil =>
    intro l hl
    exact absurd hl (List.not_mem_nil l)
  | cons x rest ih =>
    intro l hl
    simp only [replaceFirstLine] at hl
    by_cases hx : hasPre x pat = true
    · rw [if_pos hx] at hl
      rcases List.mem_cons.mp hl with rfl | h2
      · exact Or.inr rfl
      · exact Or.inl (List.mem_cons.mpr (Or.inr h2))
    · rw [if_neg hx] at hl
      rcases List.mem_cons.mp hl with rfl | h2
      · exact Or.inl (List.mem_cons_self _ _)
      · rcases ih l h2 with h3 | h3
        · exact Or.inl (List.mem_cons.mpr (Or.inr h3))
        · exact Or.inr h3


/-! ## The substitution fold, at content and line level -/

theorem fold_lines_length (subs : List PortSub) (ports : PortAllocation) :
    ∀ ls : List Str,
      (subs.foldl (fun ls2 sub =>
        replaceFirstLine sub.pat (sub.replacement ports) ls2) ls).length =
      ls.length := by
  induction subs with
  | nil => intro ls; rfl
  | cons sub rest ih =>
    intro ls
    rw [List.foldl_cons, ih, replaceFirstLine_length]

theorem fold_lines_free (subs : List PortSub) (ports : PortAllocation)
    (hrep : ∀ sub ∈ subs, '\n' ∉ sub.replacement ports) :
    ∀ ls : List Str, (∀ l ∈ ls, '\n' ∉ l) →
      ∀ l ∈ subs.foldl (fun ls2 sub =>
        replaceFirstLine sub.pat (sub.replacement ports) ls2) ls, '\n' ∉ l := by
  induction subs with
  | nil =>
    intro ls hfree l hl
    exact hfree l hl
  | cons sub rest ih =>
    intro ls hfree l hl
    rw [List.foldl_cons] at hl
    refine ih (fun s hs => hrep s (List.mem_cons.mpr (Or.inr hs))) _ ?_ l hl
    intro x hx
    rcases mem_replaceFirstLine _ _ _ x hx with h2 | rfl
    · exact hfree x h2
    · exact hrep sub (List.mem_cons_self _ _)

theorem fold_lines_getElem (subs : List PortSub) (ports : PortAllocation) :
    ∀ (ls : List Str) (i : Nat),
      (subs.foldl (fun ls2 sub =>
        replaceFirstLine sub.pat (sub.replacement ports) ls2) ls)[i]? = ls[i]? ∨
      ∃ sub ∈ subs,
        (subs.foldl (fun ls2 sub =>
          replaceFirstLine sub.pat (sub.replacement ports) ls2) ls)[i]? =
        some (sub.replacement ports) := by
  induction subs with
  | nil =>
    intro ls i
    exact Or.inl rfl
  | cons sub rest ih =>
    intro ls i
    rw [List.foldl_cons]
    rcases ih (replaceFirstLine sub.pat (sub.replacement ports) ls) i with h | h
    · rw [h]
      rcases replaceFirstLine_getElem sub.pat (sub.replacement ports) ls i
        with h2 | h2
      · exact Or.inl h2
      · exact Or.inr ⟨sub, List.mem_cons_self _ _, h2⟩
    · rcases h with ⟨s2, hs2, h2⟩
      exact Or.inr ⟨s2, List.mem_cons.mpr (Or.inr hs2), h2⟩

theorem fold_lines_no_match (subs : List PortSub) (ports : PortAllocation) :
    ∀ ls : List Str, (∀ sub ∈ subs, ∀ l ∈ ls, hasPre l sub.pat = false) →
      subs.foldl (fun ls2 sub =>
        replaceFirstLine sub.pat (sub.replacement ports) ls2) ls = ls := by
  induction subs with
  | nil => intro ls _; rfl
  | cons sub rest ih =>
    intro ls hm
    rw [List.foldl_cons,
      replaceFirstLine_of_no_match _ _ _ (hm sub (List.mem_cons_self _ _))]
    exact ih ls (fun s hs => hm s (List.mem_cons.mpr (Or.inr hs)))

theorem subst_fold_eq (subs : List PortSub) (ports : PortAllocation)
    (hrep : ∀ sub ∈ subs, '\n' ∉ sub.replacement ports) :
    ∀ ls : List Str, ls ≠ [] → (∀ l ∈ ls, '\n' ∉ l) →
      subs.foldl (fun result sub =>
        if regexTest sub.pat result then
          regexReplaceFirst sub.pat (sub.replacement ports) result
        else result) (joinLines ls) =
      joinLines (subs.foldl (fun ls2 sub =>
        replaceFirstLine sub.pat (sub.replacement ports) ls2) ls) := by
  induction subs with
  | nil =>
    intro ls _ _
    rfl
  | cons sub rest ih =>
    intro ls hne hfree
    have hsub : '\n' ∉ sub.replacement ports := hrep sub (List.mem_cons_self _ _)
    have hrest : ∀ s ∈ rest, '\n' ∉ s.replacement ports :=
      fun s hs => hrep s (List.mem_cons.mpr (Or.inr hs))
    rw [List.foldl_cons, List.foldl_cons]
    have hsplit : splitLines (joinLines ls) = ls := splitCh_joinCh '\n' ls hne hfree
    by_cases htest : regexTest sub.pat (joinLines ls) = true
    · rw [if_pos htest]
      have hrr : regexReplaceFirst sub.pat (sub.replacement ports) (joinLines ls) =
          joinLines (replaceFirstLine sub.pat (sub.replacement ports) ls) := by
        unfold regexReplaceFirst
        rw [hsplit]
      rw [hrr]
      refine ih hrest _ ?_ ?_
      · intro h0
        apply hne
        have hl := replaceFirstLine_length sub.pat (sub.replacement ports) ls
        rw [h0] at hl
        exact List.length_eq_zero.mp hl.symm
      · intro l hl
        rcases mem_replaceFirstLine _ _ _ l hl with h2 | rfl
        · exact hfree l h2
        · exact hsub
    · rw [if_neg htest]
      have hm : ∀ l ∈ ls, hasPre l sub.pat = false := by
        intro l hl
        apply bool_eq_false
        intro hT
        apply htest
        unfold regexTest
        rw [hsplit]
        exact List.any_eq_true.mpr ⟨l, hl, hT⟩
      rw [replaceFirstLine_of_no_match _ _ _ hm]
      exact ih hrest ls hne hfree

/-- C3: `substitutePortVars` coincides with the spec's reading — split the
content into lines, apply the role's fixed ordered rule list (api:
`PORT=` to the API port, `APP_URL=` to the web URL; web:
`VITE_API_BASE=`, `VITE_PORT=`, `PORT=`; root: all four in that order),
each rule replacing exactly the first line matching its line-anchored
`KEY=` lead, and re-join.  The line count is preserved; every line of the
result is either the original line at that position or some rule's
replacement; and if no rule's key matches any line, the content is
returned unchanged. -/
theorem wtm_c3 (content : Str) (t : EnvFileType) (ports : PortAllocation) :
    substitutePortVars content t ports = specSubstitute content t ports ∧
    (splitLines (substitutePortVars content t ports)).length =
      (splitLines content).length ∧
    (∀ i : Nat,
      (splitLines (substitutePortVars content t ports))[i]? =
        (splitLines content)[i]? ∨
      ∃ sub ∈ subsFor t,
        (splitLines (substitutePortVars content t ports))[i]? =
          some (sub.replacement ports)) ∧
    ((∀ sub ∈ subsFor t, ∀ l ∈ splitLines content, hasPre l sub.pat = false) →
      substitutePortVars content t ports = content) := by
  have hrep := subsFor_no_nl t ports
  have hne : splitLines content ≠ [] := splitCh_ne_nil '\n' content
  have hfree : ∀ l ∈ splitLines content, '\n' ∉ l :=
    mem_splitCh_not_mem '\n' content
  have hjoin : joinLines (splitLines content) = content :=
    joinCh_splitCh '\n' content
  have heq : substitutePortVars content t ports =
      specSubstitute content t ports := by
    unfold substitutePortVars specSubstitute
    calc (subsFor t).foldl (fun result sub =>
          if regexTest sub.pat result then
            regexReplaceFirst sub.pat (sub.replacement ports) result
          else result) content
        = (subsFor t).foldl (fun result sub =>
            if regexTest sub.pat result then
              regexReplaceFirst sub.pat (sub.replacement ports) result
            else result) (joinLines (splitLines content)) := by rw [hjoin]
      _ = joinLines ((subsFor t).foldl (fun ls2 sub =>
            replaceFirstLine sub.pat (sub.replacement ports) ls2)
            (splitLines content)) :=
          subst_fold_eq (subsFor t) ports hrep (splitLines content) hne hfree
  have hfoldfree : ∀ l ∈ (subsFor t).foldl (fun ls2 sub =>
      replaceFirstLine sub.pat (sub.replacement ports) ls2)
      (splitLines content), '\n' ∉ l :=
    fold_lines_free (subsFor t) ports hrep (splitLines content) hfree
  have hfoldne : (subsFor t).foldl (fun ls2 sub =>
      replaceFirstLine sub.pat (sub.replacement ports) ls2)
      (splitLines content) ≠ [] := by
    intro h0
    apply hne
    have hl := fold_lines_length (subsFor t) ports (splitLines content)
    rw [h0] at hl
    exact List.length_eq_zero.mp hl.symm
  have hlines : splitLines (substitutePortVars content t ports) =
      (subsFor t).foldl (fun ls2 sub =>
        replaceFirstLine sub.pat (sub.replacement ports) ls2)
        (splitLines content) := by
    rw [heq]
    unfold specSubstitute
    exact splitCh_joinCh '\n' _ hfoldne hfoldfree
  refine ⟨heq, ?_, ?_, ?_⟩
  · rw [hlines]
    exact fold_lines_length (subsFor t) ports (splitLines content)
  · intro i
    rw [hlines]
    exact fold_lines_getElem (subsFor t) ports (splitLines content) i
  · intro hm
    rw [heq]
    unfold specSubstitute
    rw [fold_lines_no_match (subsFor t) ports (splitLines content) hm, hjoin]

/-- C3 witness: scenario D — an api env file `PORT=4000\nSECRET=abc`
provisioned with ports 4001/5174 becomes `PORT=4001\nSECRET=abc`, the
`SECRET` line untouched; a content without any rule key is unchanged. -/
theorem wtm_c3_witness :
    substitutePortVars (str "PORT=4000\nSECRET=abc") EnvFileType.api
        { apiPort := 4001, webPort := 5174, offset := 1 } =
      str "PORT=4001\nSECRET=abc" ∧
    substitutePortVars (str "PORT=4000\nSECRET=abc") EnvFileType.api
        { apiPort := 4001, webPort := 5174, offset := 1 } =
      specSubstitute (str "PORT=4000\nSECRET=abc") EnvFileType.api
        { apiPort := 4001, webPort := 5174, offset := 1 } ∧
    (∀ sub ∈ subsFor EnvFileType.api,
      ∀ l ∈ splitLines (str "X=1"), hasPre l sub.pat = false) ∧
    substitutePortVars (str "X=1") EnvFileType.api
        { apiPort := 4001, webPort := 5174, offset := 1 } = str "X=1" :=
  ⟨by decide,
    (wtm_c3 (str "PORT=4000\nSECRET=abc") EnvFileType.api
      { apiPort := 4001, webPort := 5174, offset := 1 }).1,
    by decide,
    (wtm_c3 (str "X=1") EnvFileType.api
      { apiPort := 4001, webPort := 5174, offset := 1 }).2.2.2 (by decide)⟩


/-! ## Rule sync engine: loop characterisation -/

theorem list_isEmpty_false {α : Type} (l : List α) (h : l ≠ []) :
    l.isEmpty = false := by
  cases l with
  | nil => exact absurd rfl h
  | cons a t => rfl

theorem filter_length_split {α : Type} (p : α → Bool) (l : List α) :
    (l.filter p).length + (l.filter (fun x => !p x)).length = l.length := by
  induction l with
  | nil => rfl
  | cons a t ih =>
    by_cases ha : p a = true
    · rw [List.filter_cons_of_pos ha, List.filter_cons_of_neg (by simp [ha])]
      simp only [List.length_cons]
      omega
    · have ha2 : p a = false := bool_eq_false _ ha
      rw [List.filter_cons_of_neg (by simp [ha2]),
        List.filter_cons_of_pos (by simp [ha2])]
      simp only [List.length_cons]
      omega

theorem fileName_of_ruleFile (d n : Str) (hd : d ≠ []) (hn : '/' ∉ n) :
    lastPart (splitCh '/' (joinPath d n)) = n := by
  obtain ⟨t, ht⟩ := joinPath_shape d n hd
  rw [ht]
  exact splitCh_append_sep '/' t n hn

theorem syncLoop_cons (env : SyncEnv) (targetRulesDir sf : Str) (l : List Str)
    (te : Str → Bool) :
    syncLoop env targetRulesDir (sf :: l) te =
      (if env.ignored sf ||
          !te (joinPath targetRulesDir (lastPart (splitCh '/' sf))) then
        (⟨(syncLoop env targetRulesDir l
            (fun p => if p = joinPath targetRulesDir
              (lastPart (splitCh '/' sf)) then true else te p)).1.copiedCount + 1,
          (syncLoop env targetRulesDir l
            (fun p => if p = joinPath targetRulesDir
              (lastPart (splitCh '/' sf)) then true else te p)).1.skippedCount,
          lastPart (splitCh '/' sf) ::
            (syncLoop env targetRulesDir l
              (fun p => if p = joinPath targetRulesDir
                (lastPart (splitCh '/' sf)) then true else te p)).1.copiedFiles⟩,
         (syncLoop env targetRulesDir l
           (fun p => if p = joinPath targetRulesDir
             (lastPart (splitCh '/' sf)) then true else te p)).2)
      else
        (⟨(syncLoop env targetRulesDir l te).1.copiedCount,
          (syncLoop env targetRulesDir l te).1.skippedCount + 1,
          (syncLoop env targetRulesDir l te).1.copiedFiles⟩,
         (syncLoop env targetRulesDir l te).2)) := rfl

theorem syncLoop_names (env : SyncEnv) (rulesDir targetRulesDir : Str)
    (hrd : rulesDir ≠ []) :
    ∀ (ns : List Str) (te : Str → Bool), (∀ n ∈ ns, '/' ∉ n) → ns.Nodup →
      (syncLoop env targetRulesDir
          (ns.map (fun n => joinPath rulesDir n)) te).1.copiedFiles =
        ns.filter (fun n => env.ignored (joinPath rulesDir n)
          || !te (joinPath targetRulesDir n)) ∧
      (syncLoop env targetRulesDir
          (ns.map (fun n => joinPath rulesDir n)) te).1.copiedCount =
        (ns.filter (fun n => env.ignored (joinPath rulesDir n)
          || !te (joinPath targetRulesDir n))).length ∧
      (syncLoop env targetRulesDir
          (ns.map (fun n => joinPath rulesDir n)) te).1.copiedCount +
        (syncLoop env targetRulesDir
          (ns.map (fun n => joinPath rulesDir n)) te).1.skippedCount =
        ns.length ∧
      (∀ n ∈ ns, (syncLoop env targetRulesDir
          (ns.map (fun n => joinPath rulesDir n)) te).2
          (joinPath targetRulesDir n) = true) ∧
      (∀ p, te p = true → (syncLoop env targetRulesDir
          (ns.map (fun n => joinPath rulesDir n)) te).2 p = true) := by
  intro ns
  induction ns with
  | nil =>
    intro te _ _
    refine ⟨rfl, rfl, rfl, ?_, ?_⟩
    · intro n hn
      exact absurd hn (List.not_mem_nil n)
    · intro p hp
      exact hp
  | cons n rest ih =>
    intro te hslash hnodup
    have hn : '/' ∉ n := hslash n (List.mem_cons_self _ _)
    have hrest : ∀ m ∈ rest, '/' ∉ m :=
      fun m hm => hslash m (List.mem_cons.mpr (Or.inr hm))
    have hnod := List.nodup_cons.mp hnodup
    have hfn : lastPart (splitCh '/' (joinPath rulesDir n)) = n :=
      fileName_of_ruleFile rulesDir n hrd hn
    rw [List.map_cons, syncLoop_cons, hfn]
    by_cases hcond : (env.ignored (joinPath rulesDir n)
        || !te (joinPath targetRulesDir n)) = true
    · rw [if_pos hcond]
      have hagree : ∀ m ∈ rest,
          (fun p => if p = joinPath targetRulesDir n then true else te p)
            (joinPath targetRulesDir m) = te (joinPath targetRulesDir m) := by
        intro m hm
        have hmn : ¬ joinPath targetRulesDir m = joinPath targetRulesDir n := by
          intro he
          have := joinPath_right_inj targetRulesDir m n he
          exact hnod.1 (this ▸ hm)
        simp [hmn]
      obtain ⟨ih1, ih2, ih3, ih4, ih5⟩ :=
        ih (fun p => if p = joinPath targetRulesDir n then true else te p)
          hrest hnod.2
      have hfilter : rest.filter (fun m => env.ignored (joinPath rulesDir m)
          || !(fun p => if p = joinPath targetRulesDir n then true else te p)
            (joinPath targetRulesDir m)) =
          rest.filter (fun m => env.ignored (joinPath rulesDir m)
            || !te (joinPath targetRulesDir m)) := by
        apply List.filter_congr
        intro m hm
        rw [hagree m hm]
      have hfc : List.filter (fun m => env.ignored (joinPath rulesDir m)
          || !te (joinPath targetRulesDir m)) (n :: rest) =
          n :: List.filter (fun m => env.ignored (joinPath rulesDir m)
            || !te (joinPath targetRulesDir m)) rest := by
        rw [List.filter_cons]
        simp only [hcond, if_true]
      rw [hfc]
      refine ⟨?_, ?_, ?_, ?_, ?_⟩
      · simp only []
        rw [ih1, hfilter]
      · simp only []
        rw [ih2, hfilter]
        simp
      · simp only [List.length_cons]
        omega
      · intro m hm
        rcases List.mem_cons.mp hm with rfl | hm2
        · exact ih5 _ (by simp)
        · exact ih4 m hm2
      · intro p hp
        refine ih5 p ?_
        by_cases hpe : p = joinPath targetRulesDir n <;> simp [hpe, hp]
    · rw [if_neg hcond]
      have hcondf := bool_eq_false _ hcond
      obtain ⟨ih1, ih2, ih3, ih4, ih5⟩ := ih te hrest hnod.2
      have hfc : List.filter (fun m => env.ignored (joinPath rulesDir m)
          || !te (joinPath targetRulesDir m)) (n :: rest) =
          List.filter (fun m => env.ignored (joinPath rulesDir m)
            || !te (joinPath targetRulesDir m)) rest := by
        rw [List.filter_cons]
        simp only [hcondf, Bool.false_eq_true, if_false]
      rw [hfc]
      have hte : te (joinPath targetRulesDir n) = true := by
        rcases Bool.or_eq_false_iff.mp hcondf with ⟨_, h2⟩
        simpa using h2
      refine ⟨?_, ?_, ?_, ?_, ?_⟩
      · simp only []
        exact ih1
      · simp only []
        exact ih2
      · simp only [List.length_cons]
        omega
      · intro m hm
        rcases List.mem_cons.mp hm with rfl | hm2
        · exact ih5 _ hte
        · exact ih4 m hm2
      · exact ih5

theorem findCursorRules_some (env : SyncEnv) (names : List Str)
    (hdir : env.sourceDirExists = true) (hentries : env.dirEntries = some names) :
    findCursorRules env =
      (names.filter (fun f => endsWithB f RULE_FILE_EXTENSION)).map
        (fun f => joinPath (joinPath env.mainPath CURSOR_RULES_DIR) f) := by
  unfold findCursorRules
  rw [hdir, hentries]
  rfl

theorem syncCursorRules_run (env : SyncEnv)
    (hne : ¬ env.mainPath = env.targetPath)
    (hdir : env.sourceDirExists = true) (hrf : findCursorRules env ≠ []) :
    syncCursorRules env =
      ((syncLoop env (joinPath env.targetPath CURSOR_RULES_DIR)
          (findCursorRules env) env.targetExists).1,
        { env with targetExists :=
          (syncLoop env (joinPath env.targetPath CURSOR_RULES_DIR)
            (findCursorRules env) env.targetExists).2 }) := by
  unfold syncCursorRules
  rw [if_neg hne, if_neg (by simp [hdir]),
    if_neg (by simp [list_isEmpty_false _ hrf])]


theorem sync_run_spec (env : SyncEnv) (names : List Str) (te : Str → Bool)
    (hne : ¬ env.mainPath = env.targetPath)
    (hdir : env.sourceDirExists = true)
    (hentries : env.dirEntries = some names)
    (hslash : ∀ n ∈ names, '/' ∉ n)
    (hnodup : names.Nodup)
    (hmdc : mdcOf names ≠ []) :
    (syncCursorRules { env with targetExists := te }).1.copiedFiles =
      (mdcOf names).filter (copyCond env te) ∧
    (syncCursorRules { env with targetExists := te }).1.copiedCount =
      ((mdcOf names).filter (copyCond env te)).length ∧
    (syncCursorRules { env with targetExists := te }).1.copiedCount +
      (syncCursorRules { env with targetExists := te }).1.skippedCount =
      (mdcOf names).length ∧
    (syncCursorRules { env with targetExists := te }).2 =
      { env with targetExists :=
        (syncLoop { env with targetExists := te }
          (joinPath env.targetPath CURSOR_RULES_DIR)
          ((mdcOf names).map (fun n => ruleFileOf env n)) te).2 } ∧
    ∀ n ∈ mdcOf names,
      (syncLoop { env with targetExists := te }
        (joinPath env.targetPath CURSOR_RULES_DIR)
        ((mdcOf names).map (fun n => ruleFileOf env n)) te).2
        (targetFileOf env n) = true := by
  have hrd : joinPath env.mainPath CURSOR_RULES_DIR ≠ [] :=
    joinPath_ne_nil _ _ (by decide)
  have hfind : findCursorRules { env with targetExists := te } =
      (mdcOf names).map (fun n => ruleFileOf env n) :=
    findCursorRules_some { env with targetExists := te } names hdir hentries
  have hrfne : findCursorRules { env with targetExists := te } ≠ [] := by
    rw [hfind]
    simpa using hmdc
  have hrun := syncCursorRules_run { env with targetExists := te } hne hdir hrfne
  have hmdcslash : ∀ n ∈ mdcOf names, '/' ∉ n :=
    fun n hn => hslash n (List.mem_filter.mp hn).1
  have hmdcnodup : (mdcOf names).Nodup := hnodup.filter _
  obtain ⟨l1, l2, l3, l4, l5⟩ := syncLoop_names { env with targetExists := te }
    (joinPath env.mainPath CURSOR_RULES_DIR)
    (joinPath env.targetPath CURSOR_RULES_DIR) hrd (mdcOf names) te
    hmdcslash hmdcnodup
  refine ⟨?_, ?_, ?_, ?_, ?_⟩
  · rw [hrun, hfind]
    exact l1
  · rw [hrun, hfind]
    exact l2
  · rw [hrun, hfind]
    exact l3
  · rw [hrun, hfind]
  · intro n hn
    exact l4 n hn

/-- C4: rule-file sync.  Whenever the source differs from the target, the
source rules directory exists, and the `.mdc` listing is nonempty: each
source rule file is copied exactly when it is git-ignored or no file of
its name exists at the target (copied names in source-listing order);
copied plus skipped counts equal the number of rule files; and an
immediate second sync with unchanged sources copies exactly the ignored
files and skips all non-ignored ones.  When the source equals the
target, the source rules directory is absent, or no rule files are
found, the result is `(0, 0, [])`. -/
theorem wtm_c4 :
    (∀ env : SyncEnv, env.mainPath = env.targetPath →
      (syncCursorRules env).1 = emptySyncResult) ∧
    (∀ env : SyncEnv, env.sourceDirExists = false →
      (syncCursorRules env).1 = emptySyncResult) ∧
    (∀ env : SyncEnv, findCursorRules env = [] →
      (syncCursorRules env).1 = emptySyncResult) ∧
    (∀ (env : SyncEnv) (names : List Str),
      ¬ env.mainPath = env.targetPath →
      env.sourceDirExists = true →
      env.dirEntries = some names →
      (∀ n ∈ names, '/' ∉ n) →
      names.Nodup →
      mdcOf names ≠ [] →
      ((syncCursorRules env).1.copiedFiles =
        (mdcOf names).filter (copyCond env env.targetExists) ∧
       (syncCursorRules env).1.copiedCount =
        ((mdcOf names).filter (copyCond env env.targetExists)).length ∧
       (syncCursorRules env).1.copiedCount +
        (syncCursorRules env).1.skippedCount = (mdcOf names).length ∧
       (syncCursorRules (syncCursorRules env).2).1.copiedFiles =
        (mdcOf names).filter (fun n => env.ignored (ruleFileOf env n)) ∧
       (syncCursorRules (syncCursorRules env).2).1.copiedCount =
        ((mdcOf names).filter (fun n => env.ignored (ruleFileOf env n))).length ∧
       (syncCursorRules (syncCursorRules env).2).1.skippedCount =
        ((mdcOf names).filter
          (fun n => !env.ignored (ruleFileOf env n))).length)) := by
  refine ⟨?_, ?_, ?_, ?_⟩
  · intro env h
    unfold syncCursorRules
    rw [if_pos h]
  · intro env h
    unfold syncCursorRules
    by_cases h1 : env.mainPath = env.targetPath
    · rw [if_pos h1]
    · rw [if_neg h1, if_pos (by simp [h])]
  · intro env h
    unfold syncCursorRules
    by_cases h1 : env.mainPath = env.targetPath
    · rw [if_pos h1]
    · rw [if_neg h1]
      by_cases h2 : (!env.sourceDirExists) = true
      · rw [if_pos h2]
      · rw [if_neg h2, if_pos (by simp [h, List.isEmpty_iff])]
  · intro env names hne hdir hentries hslash hnodup hmdc
    obtain ⟨a1, a2, a3, a4, a5⟩ :=
      sync_run_spec env names env.targetExists hne hdir hentries hslash
        hnodup hmdc
    have henv1 : (syncCursorRules env).2 =
        { env with targetExists :=
          (syncLoop { env with targetExists := env.targetExists }
            (joinPath env.targetPath CURSOR_RULES_DIR)
            ((mdcOf names).map (fun n => ruleFileOf env n))
            env.targetExists).2 } := a4
    obtain ⟨b1, b2, b3, b4, b5⟩ :=
      sync_run_spec env names
        (syncLoop { env with targetExists := env.targetExists }
          (joinPath env.targetPath CURSOR_RULES_DIR)
          ((mdcOf names).map (fun n => ruleFileOf env n))
          env.targetExists).2 hne hdir hentries hslash hnodup hmdc
    have hchain : syncCursorRules ((syncCursorRules env).2) =
        syncCursorRules { env with targetExists :=
          (syncLoop { env with targetExists := env.targetExists }
            (joinPath env.targetPath CURSOR_RULES_DIR)
            ((mdcOf names).map (fun n => ruleFileOf env n))
            env.targetExists).2 } := by rw [henv1]
    have hcongr : (mdcOf names).filter (copyCond env
        (syncLoop { env with targetExists := env.targetExists }
          (joinPath env.targetPath CURSOR_RULES_DIR)
          ((mdcOf names).map (fun n => ruleFileOf env n))
          env.targetExists).2) =
        (mdcOf names).filter (fun n => env.ignored (ruleFileOf env n)) := by
      apply List.filter_congr
      intro n hn
      unfold copyCond
      rw [a5 n hn]
      simp
    have hsplit := filter_length_split
      (fun n => env.ignored (ruleFileOf env n)) (mdcOf names)
    refine ⟨a1, a2, a3, ?_, ?_, ?_⟩
    · rw [hchain, b1, hcongr]
    · rw [hchain, b2, hcongr]
    · rw [hchain]
      have hb2 : (syncCursorRules { env with targetExists :=
          (syncLoop { env with targetExists := env.targetExists }
            (joinPath env.targetPath CURSOR_RULES_DIR)
            ((mdcOf names).map (fun n => ruleFileOf env n))
            env.targetExists).2 }).1.copiedCount =
          ((mdcOf names).filter
            (fun n => env.ignored (ruleFileOf env n))).length := by
        rw [b2, hcongr]
      omega

/-- C4 witness: the concrete sync environment with a gitignored
`credentials.mdc` and a tracked `style.mdc` already present at the
target: the first sync copies only `credentials.mdc` and skips
`style.mdc`; the second sync does the same (ignored files re-copied,
non-ignored skipped). -/
theorem wtm_c4_witness :
    (¬ syncDemoEnv.mainPath = syncDemoEnv.targetPath) ∧
    syncDemoEnv.sourceDirExists = true ∧
    (syncCursorRules syncDemoEnv).1.copiedFiles =
      (mdcOf [str "credentials.mdc", str "style.mdc", str "readme.txt"]).filter
        (copyCond syncDemoEnv syncDemoEnv.targetExists) ∧
    (syncCursorRules syncDemoEnv).1 =
      { copiedCount := 1, skippedCount := 1,
        copiedFiles := [str "credentials.mdc"] } ∧
    (syncCursorRules (syncCursorRules syncDemoEnv).2).1 =
      { copiedCount := 1, skippedCount := 1,
        copiedFiles := [str "credentials.mdc"] } :=
  ⟨by decide, by decide,
    (wtm_c4.2.2.2 syncDemoEnv
      [str "credentials.mdc", str "style.mdc", str "readme.txt"]
      (by decide) (by decide) (by decide) (by decide) (by decide)
      (by decide)).1,
    by decide, by decide⟩

end Wtm
